import Mathlib

/-!
# Shreve length probabilities: memoised recurrence and expected length

A shallow embedding of `Analysis/Network/Expected_Length/shreve_probabilities.cpp`.

* `double` values are exact rationals; the IEEE NaN used as the "unknown" marker of the
  memo table is `none`, and arithmetic propagates it as IEEE arithmetic does. A second copy
  of the program (`F_rnd`, `compute_expected_length_rnd`) rounds every operation; with
  `rnd64` it computes on binary64 values.
* `int` arguments are `Int`.
* The global `double F_array[N+1][N+1]` is a function from index pairs to values, passed
  explicitly through every call; every access is bounds-checked against the dimension
  `N + 1`, an access outside the array being a fault.
* The array dimension constant `N` is not defined in the source file (it is supplied at
  build time); it is a parameter of every definition.
* The recursion of `F` is driven by a fuel argument (the nesting depth still allowed).
-/

namespace Shreve

/-! ## Data model -/

/-- A `double` value: `none` is NaN, `some q` the exact number `q`. -/
abbrev Val := Option ℚ

/-- Contents of `F_array`, indexed by `[magnitude][length]`. -/
abbrev Table := Int → Int → Val

/-- Ways in which an execution can leave the domain of the model. -/
inductive Fault where
  | outOfBounds
  | divByZero
  | outOfFuel
  deriving DecidableEq

/-- Outcome of a call: a fault, or a returned value. -/
abbrev Res (α : Type) := Except Fault α

/-- An index is valid for a dimension of size `N + 1`. -/
def inRange (N : Nat) (i : Int) : Prop := 0 ≤ i ∧ i ≤ (N : Int)

instance (N : Nat) (i : Int) : Decidable (inRange N i) :=
  inferInstanceAs (Decidable (0 ≤ i ∧ i ≤ (N : Int)))

/-- The state of `F_array` after the initialisation loops of `main`: every cell NaN. -/
def allUnknown : Table := fun _ _ => none

/-- Read `F_array[m][l]`. -/
def rd (N : Nat) (T : Table) (m l : Int) : Res Val :=
  if inRange N m ∧ inRange N l then .ok (T m l) else .error .outOfBounds

/-- The table `T` with cell `(m, l)` set to `v`. -/
def upd (T : Table) (m l : Int) (v : Val) : Table :=
  fun a b => if a = m ∧ b = l then v else T a b

/-- Assign `F_array[m][l] = v`. -/
def wr (N : Nat) (T : Table) (m l : Int) (v : Val) : Res Table :=
  if inRange N m ∧ inRange N l then .ok (upd T m l v) else .error .outOfBounds

/-- IEEE addition on exact values: NaN if an operand is NaN. -/
def vadd (a b : Val) : Val :=
  match a, b with
  | some x, some y => some (x + y)
  | _, _ => none

/-- IEEE multiplication on exact values: NaN if an operand is NaN. -/
def vmul (a b : Val) : Val :=
  match a, b with
  | some x, some y => some (x * y)
  | _, _ => none

/-- IEEE subtraction on exact values: NaN if an operand is NaN. -/
def vsub (a b : Val) : Val :=
  match a, b with
  | some x, some y => some (x - y)
  | _, _ => none

/-- Division `a / b`. A NaN operand gives NaN; a zero divisor (IEEE: an infinity or NaN,
which has no exact counterpart) is a fault. -/
def vdiv (a b : Val) : Res Val :=
  match a, b with
  | some x, some y => if y = 0 then .error .divByZero else .ok (some (x / y))
  | _, _ => .ok none

/-! ## The program -/

/-- The loop `for (int i{1}; i<magnitude; ++i) { ... }` in the recursive case of `F`.
`call` is `F` itself (with the remaining fuel); the first argument counts the iterations
still to run, `i` is the loop variable, and the state is `(sum, F_array)`. -/
def F_loop (call : Table → Int → Int → Res (Val × Table)) (N : Nat) (magnitude length : Int) :
    Nat → Int → Val × Table → Res (Val × Table)
  | 0, _, st => .ok st
  | n + 1, i, (sum, T) => do
    -- F_array[i][length-1] = F(i, length-1);
    let (v1, T1) ← call T i (length - 1)
    let T2 ← wr N T1 i (length - 1) v1
    -- F_array[magnitude-i][length-1] = F(magnitude-i, length-1);
    let (v2, T3) ← call T2 (magnitude - i) (length - 1)
    let T4 ← wr N T3 (magnitude - i) (length - 1) v2
    -- sum += F_array[i][length-1]*F_array[magnitude-i][length-1];
    let a ← rd N T4 i (length - 1)
    let b ← rd N T4 (magnitude - i) (length - 1)
    F_loop call N magnitude length n (i + 1) (vadd sum (vmul a b), T4)

/-- The function `double F(int magnitude, int length)`, returning its value together with
the resulting contents of `F_array`. The first `Nat` is the fuel. -/
def F (N : Nat) : Nat → Table → Int → Int → Res (Val × Table)
  | 0, _, _, _ => .error .outOfFuel
  | fuel + 1, T, magnitude, length => do
    let c ← rd N T magnitude length
    -- if (not std::isnan(F_array[magnitude][length])) return F_array[magnitude][length];
    if c.isSome then .ok (c, T)
    else if magnitude = 1 then .ok (some (1 / 2), T)
    else if length = 1 then .ok (some 0, T)
    else do
      let (sum, T1) ← F_loop (F N fuel) N magnitude length (magnitude - 1).toNat 1 (some 0, T)
      .ok (vmul (some (1 / 2)) sum, T1)

/-- The loop `for (int i{1}; i<magnitude; ++i) { ... }` of `compute_expected_length`. -/
def cel_loop (N fuel : Nat) (magnitude : Int) : Nat → Int → Val × Table → Res (Val × Table)
  | 0, _, st => .ok st
  | n + 1, i, (sum, T) => do
    -- F_array[magnitude][i] = F(magnitude, i);
    let (v, T1) ← F N fuel T magnitude i
    let T2 ← wr N T1 magnitude i v
    -- sum += F_array[magnitude][i] / F_array[magnitude][magnitude];
    let a ← rd N T2 magnitude i
    let b ← rd N T2 magnitude magnitude
    let q ← vdiv a b
    cel_loop N fuel magnitude n (i + 1) (vadd sum q, T2)

/-- The function `double compute_expected_length(int magnitude)`. -/
def compute_expected_length (N fuel : Nat) (T : Table) (magnitude : Int) : Res (Val × Table) := do
  -- F_array[magnitude][magnitude] = F(magnitude, magnitude);
  let (v, T1) ← F N fuel T magnitude magnitude
  let T2 ← wr N T1 magnitude magnitude v
  let (sum, T3) ← cel_loop N fuel magnitude (magnitude - 1).toNat 1 (some 0, T2)
  -- return magnitude - sum;
  .ok (vsub (some (magnitude : ℚ)) sum, T3)

/-- The loop `for (int magnitude{1}; magnitude < N+1; ++magnitude)` of `main`; the state is
the list of `(magnitude, expected_length)` lines written so far and `F_array`. -/
def main_loop (N fuel : Nat) : Nat → Int → List (Int × Val) × Table → Res (List (Int × Val) × Table)
  | 0, _, st => .ok st
  | n + 1, magnitude, (out, T) => do
    let (expected_length, T1) ← compute_expected_length N fuel T magnitude
    main_loop N fuel n (magnitude + 1) (out ++ [(magnitude, expected_length)], T1)

/-- The function `main`: initialise `F_array` to NaN, then tabulate magnitudes `1..N`.
The result is the sequence of lines written to `expected_lengths.dat`. -/
def main (N fuel : Nat) : Res (List (Int × Val)) := do
  let (out, _) ← main_loop N fuel N 1 ([], allUnknown)
  .ok out

/-! ## The memo-free recurrence -/

/-- The recurrence of `F` without the memo table, on exact rationals:
`Fref 1 l = 1/2`; `Fref m 1 = 0` for `m ≠ 1`; otherwise
`Fref m l = 1/2 * Σ_{i=1}^{m-1} Fref i (l-1) * Fref (m-i) (l-1)`.
Length `0` is outside the domain of the recurrence (the code would index column `-1`);
there the value is fixed as `1/2` for magnitude `1` and `0` otherwise. -/
def Fref : Nat → Nat → ℚ
  | m, 0 => if m = 1 then 1 / 2 else 0
  | m, l + 1 =>
    if m = 1 then 1 / 2
    else if l = 0 then 0
    else 1 / 2 * ∑ i ∈ Finset.Ico 1 m, Fref i l * Fref (m - i) l

/-- The aggregator formula on the memo-free recurrence:
`m - Σ_{i=1}^{m-1} Fref m i / Fref m m`. -/
def Eref (m : Nat) : ℚ := (m : ℚ) - ∑ i ∈ Finset.Ico 1 m, Fref m i / Fref m m

/-- Every computed entry of the table is the memo-free recurrence value of its index
pair, and only cells with both indices at least `1` are computed. -/
def Sound (T : Table) : Prop :=
  ∀ (a b : Int) (q : ℚ), T a b = some q → 1 ≤ a ∧ 1 ≤ b ∧ q = Fref a.toNat b.toNat

/-- Every computed entry of `T` is still there, unchanged, in `U`. -/
def Ext (T U : Table) : Prop := ∀ (a b : Int) (q : ℚ), T a b = some q → U a b = some q

/-- Tables reachable from the all-unknown table by a finite sequence of returning calls
of `F` and `compute_expected_length` with arguments in `1..N`. -/
inductive Reachable (N : Nat) : Table → Prop
  | init : Reachable N allUnknown
  | callF (fuel : Nat) (T U : Table) (m l : Int) (v : Val) :
      Reachable N T → 1 ≤ m → m ≤ N → 1 ≤ l → l ≤ N →
      F N fuel T m l = .ok (v, U) → Reachable N U
  | callE (fuel : Nat) (T U : Table) (m : Int) (v : Val) :
      Reachable N T → 1 ≤ m → m ≤ N →
      compute_expected_length N fuel T m = .ok (v, U) → Reachable N U

/-- The table left by the call `F(2, 2)` on the all-unknown table: cell `(1, 1)` holds
`0.5` (assigned twice by the single loop iteration), every other cell is unknown. -/
def warm : Table := upd (upd allUnknown 1 1 (some (1 / 2))) 1 1 (some (1 / 2))

/-! ## Specification-side definitions -/

/-- The outcome `r` of evaluating `F(m, l)` from table `T` is the memo-free value, and
the resulting table is sound and keeps every computed entry of `T`. -/
def FSpec (T : Table) (m l : Nat) (r : Res (Val × Table)) : Prop :=
  ∃ U, r = .ok (some (Fref m l), U) ∧ Sound U ∧ Ext T U

/-- The outcome `r` of `compute_expected_length(m)` from table `T` is the aggregator
formula on the memo-free recurrence, and the resulting table is sound and keeps every
computed entry of `T`. -/
def ESpec (T : Table) (m : Nat) (r : Res (Val × Table)) : Prop :=
  ∃ U, r = .ok (some (Eref m), U) ∧ Sound U ∧ Ext T U

/-- The lines the full run writes for magnitudes `k, k+1, ..., k+n-1`. -/
def linesFrom (k n : Nat) : List (Int × Val) :=
  (List.range' k n).map fun (m : Nat) => ((m : Int), some (Eref m))

/-- Binary plane trees with `n` internal nodes (so `n + 1` leaves) and height at most `h`. -/
def treesHeightLe (n h : Nat) : Finset (Tree Unit) :=
  (Tree.treesOfNumNodesEq n).filter fun t => t.height ≤ h

/-- The networks of magnitude `m` under the random topology model: the binary plane
trees with `m` leaves, that is with `m - 1` internal nodes. -/
def networks (m : Nat) : Finset (Tree Unit) := Tree.treesOfNumNodesEq (m - 1)

/-- The length of a network: the number of links on its longest path from the outlet to
a source. A single link has length `1`; joining two networks adds the outlet link. -/
def networkLength : Tree Unit → Nat
  | .nil => 1
  | .node _ l r => max (networkLength l) (networkLength r) + 1

/-- The arithmetic mean of the length over the networks of magnitude `m`. -/
def meanLength (m : Nat) : ℚ :=
  (∑ t ∈ networks m, (networkLength t : ℚ)) / ((networks m).card : ℚ)

/-! ## The instrumented program

The same program with a log of its accesses to `F_array`. Erasing the log gives back the
program above (`F_log_erase`, `compute_expected_length_log_erase`, `main_loop_log_erase`). -/

/-- An access to `F_array`. The test `std::isnan(F_array[m][l])` at the entry of `F(m, l)` is
a `lookup`, recorded with its outcome (`hit = false` is a cache miss); every other read and
every assignment is a `read` or a `write`. -/
inductive Event where
  | lookup (m l : Int) (hit : Bool)
  | read (m l : Int)
  | write (m l : Int)
  deriving DecidableEq

/-- The row index of an access. -/
def Event.row : Event → Int
  | .lookup m _ _ => m
  | .read m _ => m
  | .write m _ => m

/-- The column index of an access. -/
def Event.col : Event → Int
  | .lookup _ l _ => l
  | .read _ l => l
  | .write _ l => l

/-- The index pairs of the cache misses in a log, in order of occurrence. -/
def misses : List Event → List (Int × Int)
  | [] => []
  | .lookup m l false :: es => (m, l) :: misses es
  | _ :: es => misses es

/-- The loop of `F` with the log as a third component of the state. -/
def F_loop_log (call : Table → Int → Int → Res (Val × Table × List Event)) (N : Nat)
    (magnitude length : Int) :
    Nat → Int → Val × Table × List Event → Res (Val × Table × List Event)
  | 0, _, st => .ok st
  | n + 1, i, (sum, T, log) => do
    let (v1, T1, log1) ← call T i (length - 1)
    let T2 ← wr N T1 i (length - 1) v1
    let (v2, T3, log2) ← call T2 (magnitude - i) (length - 1)
    let T4 ← wr N T3 (magnitude - i) (length - 1) v2
    let a ← rd N T4 i (length - 1)
    let b ← rd N T4 (magnitude - i) (length - 1)
    F_loop_log call N magnitude length n (i + 1)
      (vadd sum (vmul a b), T4,
        log ++ log1 ++ [.write i (length - 1)] ++ log2 ++
          [.write (magnitude - i) (length - 1), .read i (length - 1),
            .read (magnitude - i) (length - 1)])

/-- The function `F` returning in addition the log of its accesses, nested calls included. -/
def F_log (N : Nat) : Nat → Table → Int → Int → Res (Val × Table × List Event)
  | 0, _, _, _ => .error .outOfFuel
  | fuel + 1, T, magnitude, length => do
    let c ← rd N T magnitude length
    if c.isSome then .ok (c, T, [.lookup magnitude length true, .read magnitude length])
    else if magnitude = 1 then .ok (some (1 / 2), T, [.lookup magnitude length false])
    else if length = 1 then .ok (some 0, T, [.lookup magnitude length false])
    else do
      let (sum, T1, log) ← F_loop_log (F_log N fuel) N magnitude length (magnitude - 1).toNat 1
        (some 0, T, [.lookup magnitude length false])
      .ok (vmul (some (1 / 2)) sum, T1, log)

/-- The loop of `compute_expected_length` with the log as a third component of the state. -/
def cel_loop_log (N fuel : Nat) (magnitude : Int) :
    Nat → Int → Val × Table × List Event → Res (Val × Table × List Event)
  | 0, _, st => .ok st
  | n + 1, i, (sum, T, log) => do
    let (v, T1, log1) ← F_log N fuel T magnitude i
    let T2 ← wr N T1 magnitude i v
    let a ← rd N T2 magnitude i
    let b ← rd N T2 magnitude magnitude
    let q ← vdiv a b
    cel_loop_log N fuel magnitude n (i + 1)
      (vadd sum q, T2,
        log ++ log1 ++ [.write magnitude i, .read magnitude i, .read magnitude magnitude])

/-- The function `compute_expected_length` returning in addition the log of its accesses. -/
def compute_expected_length_log (N fuel : Nat) (T : Table) (magnitude : Int) :
    Res (Val × Table × List Event) := do
  let (v, T1, log1) ← F_log N fuel T magnitude magnitude
  let T2 ← wr N T1 magnitude magnitude v
  let (sum, T3, log) ← cel_loop_log N fuel magnitude (magnitude - 1).toNat 1
    (some 0, T2, log1 ++ [.write magnitude magnitude])
  .ok (vsub (some (magnitude : ℚ)) sum, T3, log)

/-- The loop of `main` with the log as a third component of the state. -/
def main_loop_log (N fuel : Nat) :
    Nat → Int → List (Int × Val) × Table × List Event →
      Res (List (Int × Val) × Table × List Event)
  | 0, _, st => .ok st
  | n + 1, magnitude, (out, T, log) => do
    let (expected_length, T1, log1) ← compute_expected_length_log N fuel T magnitude
    main_loop_log N fuel n (magnitude + 1)
      (out ++ [(magnitude, expected_length)], T1, log ++ log1)

/-- Forget the log of an instrumented outcome. -/
def eraseLog {α : Type} (r : Res (α × Table × List Event)) : Res (α × Table) :=
  match r with
  | .ok (x, T, _) => .ok (x, T)
  | .error e => .error e

/-- An access inside the part `[1, N] × [1, N]` of the array. -/
def InSquare (N : Nat) (e : Event) : Prop :=
  1 ≤ e.row ∧ e.row ≤ (N : Int) ∧ 1 ≤ e.col ∧ e.col ≤ (N : Int)

/-- The table `U` differs from `T` at most in cells `(a, b)` with `1 ≤ a < m` and
`1 ≤ b < l`. -/
def Frame (T U : Table) (m l : Int) : Prop :=
  ∀ a b : Int, U a b ≠ T a b → 1 ≤ a ∧ a < m ∧ 1 ≤ b ∧ b < l

/-- The outcome `r` of an instrumented call at `(m, l)` from an arbitrary table `T`: it
returns, changes only cells below and to the left of `(m, l)`, and all its accesses are
inside `[1, N] × [1, N]`. -/
def GSpec (N : Nat) (T : Table) (m l : Int) (r : Res (Val × Table × List Event)) : Prop :=
  ∃ v U log, r = .ok (v, U, log) ∧ Frame T U m l ∧ ∀ e ∈ log, InSquare N e

/-- The cache misses `ms` of a run from table `T` to table `U`: no pair is missed twice,
every missed pair was unknown in `T` and is computed in `U`. -/
def RunMiss (T U : Table) (ms : List (Int × Int)) : Prop :=
  ms.Nodup ∧ ∀ p ∈ ms, T p.1 p.2 = none ∧ U p.1 p.2 ≠ none

/-- The cache misses `ms` of one call `F(m, l)` from table `T` to table `U`: no pair is
missed twice, every missed pair was unknown in `T`, and it is either `(m, l)` itself (left
to the caller to store) or a pair of smaller length that is computed in `U`. -/
def MissOK (T U : Table) (m l : Int) (ms : List (Int × Int)) : Prop :=
  ms.Nodup ∧ ∀ p ∈ ms, T p.1 p.2 = none ∧ (p = (m, l) ∨ (p.2 < l ∧ U p.1 p.2 ≠ none))

/-- The outcome `r` of an instrumented call `F(m, l)` from a sound table `T`: the value is
the memo-free one, the table stays sound and keeps its entries, the misses are as in
`MissOK`, and after a miss with `l ≥ 2` every cell `(j, l - 1)` with `1 ≤ j < m` is
computed. -/
def LSpec (T : Table) (m l : Nat) (r : Res (Val × Table × List Event)) : Prop :=
  ∃ U log, r = .ok (some (Fref m l), U, log) ∧ Sound U ∧ Ext T U ∧
    MissOK T U m l (misses log) ∧
    (T m l = none → 2 ≤ l → ∀ j : Nat, 1 ≤ j → j < m →
      U j ((l : Int) - 1) = some (Fref j (l - 1)))

/-- The probability that a network of magnitude `m` has length exactly `l`: the fraction
of the networks of magnitude `m`, taken as equally likely, whose length is `l`. -/
def lengthProb (m l : Nat) : ℚ :=
  (((networks m).filter fun t => networkLength t = l).card : ℚ) / ((networks m).card : ℚ)

/-- The probability that a network of magnitude `m` has length at most `l`. -/
def lengthCumProb (m l : Nat) : ℚ :=
  (((networks m).filter fun t => networkLength t ≤ l).card : ℚ) / ((networks m).card : ℚ)

/-! ## The program in IEEE double arithmetic

The same program with every arithmetic operation followed by a rounding `r`. With the
identity for `r` this is the exact program above (`F_rnd_id`,
`compute_expected_length_rnd_id`); with `rnd64` it is the program on binary64 values, each
operation rounded separately to the nearest value, ties to even, with gradual underflow.
Overflow to an infinity is not modelled (the exponent is unbounded above); the values of
this program do not exceed the magnitude. -/

/-- The integer nearest to `q`, the even one in case of a tie. -/
def roundEven (q : ℚ) : Int :=
  if q - ⌊q⌋ < 1 / 2 then ⌊q⌋
  else if 1 / 2 < q - ⌊q⌋ then ⌊q⌋ + 1
  else if ⌊q⌋ % 2 = 0 then ⌊q⌋ else ⌊q⌋ + 1

/-- The number of times `n` can be halved before it drops below `2`, at most `f` times. -/
def halvings : Nat → Nat → Nat
  | 0, _ => 0
  | f + 1, n => if 2 ≤ n then halvings f (n / 2) + 1 else 0

/-- The exponent `k` with `2^k ≤ n < 2^(k+1)`, for `n ≠ 0`. -/
def natLog2 (n : Nat) : Nat := halvings n n

/-- The exponent `e` with `2^e ≤ |q| < 2^(e+1)`, for `q ≠ 0`: the difference of the
exponents of numerator and denominator, or one less. -/
def log2floor (q : ℚ) : Int :=
  if (2 : ℚ) ^ ((natLog2 q.num.natAbs : Int) - (natLog2 q.den : Int)) ≤ |q| then
    (natLog2 q.num.natAbs : Int) - (natLog2 q.den : Int)
  else (natLog2 q.num.natAbs : Int) - (natLog2 q.den : Int) - 1

/-- The exponent of the unit in the last place of the binary64 values around `q`: 52 below
the exponent of `q` (53 significant bits), but not below `-1074` (subnormal range). -/
def ulpExp (q : ℚ) : Int := max (log2floor q - 52) (-1074)

/-- Rounding to binary64: the nearest multiple of the unit in the last place, ties to
even. -/
def rnd64 (q : ℚ) : ℚ :=
  if q = 0 then 0 else (roundEven (q / (2 : ℚ) ^ ulpExp q) : ℚ) * (2 : ℚ) ^ ulpExp q

/-- Rounded addition: NaN if an operand is NaN. -/
def vaddR (r : ℚ → ℚ) (a b : Val) : Val :=
  match a, b with
  | some x, some y => some (r (x + y))
  | _, _ => none

/-- Rounded multiplication: NaN if an operand is NaN. -/
def vmulR (r : ℚ → ℚ) (a b : Val) : Val :=
  match a, b with
  | some x, some y => some (r (x * y))
  | _, _ => none

/-- Rounded subtraction: NaN if an operand is NaN. -/
def vsubR (r : ℚ → ℚ) (a b : Val) : Val :=
  match a, b with
  | some x, some y => some (r (x - y))
  | _, _ => none

/-- Rounded division; a zero divisor is a fault, as in `vdiv`. -/
def vdivR (r : ℚ → ℚ) (a b : Val) : Res Val :=
  match a, b with
  | some x, some y => if y = 0 then .error .divByZero else .ok (some (r (x / y)))
  | _, _ => .ok none

/-- The loop of `F` with rounded operations. -/
def F_loop_rnd (r : ℚ → ℚ) (call : Table → Int → Int → Res (Val × Table)) (N : Nat)
    (magnitude length : Int) : Nat → Int → Val × Table → Res (Val × Table)
  | 0, _, st => .ok st
  | n + 1, i, (sum, T) => do
    let (v1, T1) ← call T i (length - 1)
    let T2 ← wr N T1 i (length - 1) v1
    let (v2, T3) ← call T2 (magnitude - i) (length - 1)
    let T4 ← wr N T3 (magnitude - i) (length - 1) v2
    let a ← rd N T4 i (length - 1)
    let b ← rd N T4 (magnitude - i) (length - 1)
    F_loop_rnd r call N magnitude length n (i + 1) (vaddR r sum (vmulR r a b), T4)

/-- The function `F` with rounded operations. The constants `0.5` and `0.` are binary64
values. -/
def F_rnd (r : ℚ → ℚ) (N : Nat) : Nat → Table → Int → Int → Res (Val × Table)
  | 0, _, _, _ => .error .outOfFuel
  | fuel + 1, T, magnitude, length => do
    let c ← rd N T magnitude length
    if c.isSome then .ok (c, T)
    else if magnitude = 1 then .ok (some (1 / 2), T)
    else if length = 1 then .ok (some 0, T)
    else do
      let (sum, T1) ← F_loop_rnd r (F_rnd r N fuel) N magnitude length (magnitude - 1).toNat 1
        (some 0, T)
      .ok (vmulR r (some (1 / 2)) sum, T1)

/-- The loop of `compute_expected_length` with rounded operations. -/
def cel_loop_rnd (r : ℚ → ℚ) (N fuel : Nat) (magnitude : Int) :
    Nat → Int → Val × Table → Res (Val × Table)
  | 0, _, st => .ok st
  | n + 1, i, (sum, T) => do
    let (v, T1) ← F_rnd r N fuel T magnitude i
    let T2 ← wr N T1 magnitude i v
    let a ← rd N T2 magnitude i
    let b ← rd N T2 magnitude magnitude
    let q ← vdivR r a b
    cel_loop_rnd r N fuel magnitude n (i + 1) (vaddR r sum q, T2)

/-- The function `compute_expected_length` with rounded operations; the conversion of
`magnitude` to `double` is rounded too. -/
def compute_expected_length_rnd (r : ℚ → ℚ) (N fuel : Nat) (T : Table) (magnitude : Int) :
    Res (Val × Table) := do
  let (v, T1) ← F_rnd r N fuel T magnitude magnitude
  let T2 ← wr N T1 magnitude magnitude v
  let (sum, T3) ← cel_loop_rnd r N fuel magnitude (magnitude - 1).toNat 1 (some 0, T2)
  .ok (vsubR r (some (r (magnitude : ℚ))) sum, T3)

/-- The value returned by an outcome, if it returned one. -/
def valueOf (x : Res (Val × Table)) : Option Val :=
  match x with
  | .ok (v, _) => some v
  | .error _ => none

/-- A number with at most 53 significant bits: `n * 2^e` with `|n| ≤ 2^53`. Every binary64
value is one. -/
def Fits53 (q : ℚ) : Prop := ∃ n e : Int, |n| ≤ 2 ^ 53 ∧ q = (n : ℚ) * (2 : ℚ) ^ e

/-- The outcome `x` of a rounded call at `(m, l)` from table `T`: it returns a number,
changes only cells below and left of `(m, l)`, and after a miss outside the base cases the
number is a rounded one. -/
def RSpec (r : ℚ → ℚ) (T : Table) (m l : Int) (x : Res (Val × Table)) : Prop :=
  ∃ q U, x = .ok (some q, U) ∧ Frame T U m l ∧
    (∀ w, T m l = some w → q = w) ∧
    (T m l = none → m ≠ 1 → l ≠ 1 → ∃ y, q = r y)

/-! ## Properties of the memo-free recurrence -/

theorem Fref_one (l : Nat) : Fref 1 l = 1 / 2 := by
  cases l <;> simp [Fref]

theorem Fref_len_one (m : Nat) (hm : m ≠ 1) : Fref m 1 = 0 := by
  simp [Fref, hm]

theorem Fref_rec (m l : Nat) (hm : m ≠ 1) (hl : 1 ≤ l) :
    Fref m (l + 1) = 1 / 2 * ∑ i ∈ Finset.Ico 1 m, Fref i l * Fref (m - i) l := by
  have h0 : l ≠ 0 := by omega
  rw [Fref]
  simp [hm, h0]

theorem Fref_nonneg (m l : Nat) : 0 ≤ Fref m l := by
  induction l generalizing m with
  | zero =>
    rw [Fref]
    split <;> norm_num
  | succ l ih =>
    rw [Fref]
    split
    · norm_num
    · split
      · exact le_refl _
      · apply mul_nonneg (by norm_num)
        apply Finset.sum_nonneg
        intro i _
        exact mul_nonneg (ih i) (ih (m - i))

theorem Fref_pos (m l : Nat) (hm : 1 ≤ m) (hml : m ≤ l) : 0 < Fref m l := by
  induction l generalizing m with
  | zero => omega
  | succ l ih =>
    by_cases h1 : m = 1
    · subst h1
      rw [Fref_one]
      norm_num
    · have hl : 1 ≤ l := by omega
      rw [Fref_rec m l h1 hl]
      apply mul_pos (by norm_num)
      have hmem : 1 ∈ Finset.Ico 1 m := by
        rw [Finset.mem_Ico]
        omega
      have hterm : 0 < Fref 1 l * Fref (m - 1) l :=
        mul_pos (ih 1 (le_refl _) hl) (ih (m - 1) (by omega) (by omega))
      exact Finset.sum_pos' (fun i _ => mul_nonneg (Fref_nonneg i l) (Fref_nonneg (m - i) l))
        ⟨1, hmem, hterm⟩

/-! ## Table accesses -/

theorem inRange_of_le (N : Nat) (m : Nat) (h : m ≤ N) : inRange N (m : Int) := by
  unfold inRange
  omega

theorem rd_ok (N : Nat) (T : Table) (m l : Nat) (hm : m ≤ N) (hl : l ≤ N) :
    rd N T m l = .ok (T m l) := by
  unfold rd
  rw [if_pos ⟨inRange_of_le N m hm, inRange_of_le N l hl⟩]

theorem wr_ok (N : Nat) (T : Table) (m l : Nat) (v : Val) (hm : m ≤ N) (hl : l ≤ N) :
    wr N T m l v = .ok (upd T m l v) := by
  unfold wr
  rw [if_pos ⟨inRange_of_le N m hm, inRange_of_le N l hl⟩]

theorem upd_same (T : Table) (m l : Int) (v : Val) : upd T m l v m l = v := by
  simp [upd]

theorem Sound_allUnknown : Sound allUnknown := by
  intro a b q h
  simp [allUnknown] at h

theorem Ext_refl (T : Table) : Ext T T := fun _ _ _ h => h

theorem Ext_trans {T U V : Table} (h1 : Ext T U) (h2 : Ext U V) : Ext T V :=
  fun a b q h => h2 a b q (h1 a b q h)

theorem Sound_upd (T : Table) (m l : Nat) (hT : Sound T) (hm : 1 ≤ m) (hl : 1 ≤ l) :
    Sound (upd T m l (some (Fref m l))) := by
  intro a b q h
  unfold upd at h
  split at h
  · rename_i hab
    obtain ⟨ha, hb⟩ := hab
    subst ha hb
    simp only [Option.some.injEq] at h
    refine ⟨by omega, by omega, ?_⟩
    simp [← h]
  · exact hT a b q h

theorem Ext_upd (T : Table) (m l : Nat) (hT : Sound T) :
    Ext T (upd T m l (some (Fref m l))) := by
  intro a b q h
  unfold upd
  split
  · rename_i hab
    obtain ⟨ha, hb⟩ := hab
    subst ha hb
    have := (hT _ _ q h).2.2
    simp at this
    rw [this]
  · exact h

/-! ## Correctness of the memoised evaluator -/

theorem F_loop_spec (N : Nat) (call : Table → Int → Int → Res (Val × Table)) (m l : Nat)
    (P : Prop) (hlN : l ≤ N) (hl : 1 ≤ l) (hm : m ≤ N)
    (hcall : ∀ (T : Table) (i : Nat), Sound T → 1 ≤ i → i ≤ N →
      (call T i l = .error .outOfFuel ∧ P) ∨ FSpec T i l (call T i l)) :
    ∀ (n i : Nat) (s : ℚ) (T : Table), Sound T → 1 ≤ i → i + n = m →
      (F_loop call N m ((l : Int) + 1) n i (some s, T) = .error .outOfFuel ∧ P) ∨
      ∃ U, F_loop call N m ((l : Int) + 1) n i (some s, T)
          = .ok (some (s + ∑ j ∈ Finset.Ico i m, Fref j l * Fref (m - j) l), U)
        ∧ Sound U ∧ Ext T U := by
  intro n
  induction n with
  | zero =>
    intro i s T hT hi him
    right
    have : i = m := by omega
    subst this
    exact ⟨T, by simp [F_loop], hT, Ext_refl T⟩
  | succ n ih =>
    intro i s T hT hi him
    have hiN : i ≤ N := by omega
    have hsub : (m : Int) - (i : Int) = ((m - i : Nat) : Int) := by omega
    have hcanc : (l : Int) + 1 - 1 = (l : Int) := by omega
    rw [F_loop, hcanc, hsub]
    rcases hcall T i hT hi hiN with ⟨he, hP⟩ | ⟨U1, h1, hU1, hE1⟩
    · left
      rw [he]
      exact ⟨rfl, hP⟩
    · rw [h1]
      simp only [bind, Except.bind]
      rw [wr_ok N U1 i l _ hiN hlN]
      simp only
      have hS2 : Sound (upd U1 i l (some (Fref i l))) := Sound_upd U1 i l hU1 hi hl
      have hE2 : Ext U1 (upd U1 i l (some (Fref i l))) := Ext_upd U1 i l hU1
      rcases hcall _ (m - i) hS2 (by omega) (by omega) with ⟨he, hP⟩ | ⟨U3, h3, hU3, hE3⟩
      · left
        rw [he]
        exact ⟨rfl, hP⟩
      · rw [h3]
        simp only
        rw [wr_ok N U3 (m - i) l _ (by omega) hlN]
        simp only
        have hS4 : Sound (upd U3 (m - i : Nat) l (some (Fref (m - i) l))) :=
          Sound_upd U3 (m - i) l hU3 (by omega) hl
        have hE4 : Ext U3 (upd U3 (m - i : Nat) l (some (Fref (m - i) l))) :=
          Ext_upd U3 (m - i) l hU3
        rw [rd_ok N _ i l hiN hlN, rd_ok N _ (m - i) l (by omega) hlN]
        simp only
        have ha : upd U3 (m - i : Nat) l (some (Fref (m - i) l)) i l = some (Fref i l) :=
          hE4 _ _ _ (hE3 _ _ _ (upd_same U1 i l _))
        rw [ha, upd_same]
        have hi1 : ((i : Int) + 1) = ((i + 1 : Nat) : Int) := by push_cast; rfl
        simp only [vmul, vadd]
        rw [hi1]
        rcases ih (i + 1) (s + Fref i l * Fref (m - i) l) _ hS4 (by omega) (by omega)
          with ⟨he, hP⟩ | ⟨U, h, hU, hE⟩
        · left
          exact ⟨he, hP⟩
        · right
          refine ⟨U, ?_, hU, Ext_trans (Ext_trans (Ext_trans hE1 hE2) (Ext_trans hE3 hE4)) hE⟩
          rw [h]
          have hsum : ∑ j ∈ Finset.Ico i m, Fref j l * Fref (m - j) l
              = Fref i l * Fref (m - i) l + ∑ j ∈ Finset.Ico (i + 1) m, Fref j l * Fref (m - j) l := by
            rw [Finset.sum_eq_sum_Ico_succ_bot (by omega)]
          rw [hsum, add_assoc]

theorem F_spec (N : Nat) : ∀ (fuel : Nat) (T : Table) (m l : Nat),
    Sound T → 1 ≤ m → m ≤ N → 1 ≤ l → l ≤ N →
    (F N fuel T m l = .error .outOfFuel ∧ fuel < l) ∨ FSpec T m l (F N fuel T m l) := by
  intro fuel
  induction fuel with
  | zero =>
    intro T m l _ _ _ hl _
    left
    exact ⟨rfl, by omega⟩
  | succ fuel ih =>
    intro T m l hT hm hmN hl hlN
    rw [F, rd_ok N T m l hmN hlN]
    simp only [bind, Except.bind]
    cases hc : T m l with
    | some q =>
      right
      have hq := (hT _ _ q hc).2.2
      simp only [Int.toNat_ofNat] at hq
      subst hq
      exact ⟨T, by simp, hT, Ext_refl T⟩
    | none =>
      simp only [Option.isSome_none, Bool.false_eq_true, if_false]
      by_cases h1 : m = 1
      · subst h1
        right
        refine ⟨T, ?_, hT, Ext_refl T⟩
        simp [Fref_one]
      · have h1i : ¬ ((m : Int) = 1) := by omega
        rw [if_neg h1i]
        by_cases h2 : l = 1
        · subst h2
          right
          refine ⟨T, ?_, hT, Ext_refl T⟩
          simp [Fref_len_one m h1]
        · have h2i : ¬ ((l : Int) = 1) := by omega
          rw [if_neg h2i]
          obtain ⟨k, rfl⟩ : ∃ k, l = k + 1 := ⟨l - 1, by omega⟩
          have hk : 1 ≤ k := by omega
          have hn : ((m : Int) - 1).toNat = m - 1 := by omega
          have hcast : ((k + 1 : Nat) : Int) = (k : Int) + 1 := by push_cast; rfl
          rw [hn, hcast]
          have key := F_loop_spec N (F N fuel) m k (fuel < k) (by omega) hk hmN
              (fun U i hU hi hiN => ih U i k hU hi hiN hk (by omega))
              (m - 1) 1 0 T hT (le_refl _) (by omega)
          rw [Nat.cast_one] at key
          rcases key with ⟨he, hP⟩ | ⟨U, h, hU, hE⟩
          · left
            rw [he]
            exact ⟨rfl, by omega⟩
          · right
            rw [h]
            refine ⟨U, ?_, hU, hE⟩
            simp only [vmul]
            rw [Fref_rec m k h1 hk, zero_add]

/-- With fuel at least the length, `F` returns the memo-free value. -/
theorem F_total (N fuel : Nat) (T : Table) (m l : Nat) (hT : Sound T)
    (hm : 1 ≤ m) (hmN : m ≤ N) (hl : 1 ≤ l) (hlN : l ≤ N) (hf : l ≤ fuel) :
    FSpec T m l (F N fuel T m l) := by
  rcases F_spec N fuel T m l hT hm hmN hl hlN with ⟨_, h⟩ | h
  · omega
  · exact h

/-- Whenever `F` returns, it returns the memo-free value. -/
theorem F_of_ok (N fuel : Nat) (T U : Table) (m l : Nat) (v : Val) (hT : Sound T)
    (hm : 1 ≤ m) (hmN : m ≤ N) (hl : 1 ≤ l) (hlN : l ≤ N)
    (h : F N fuel T m l = .ok (v, U)) :
    v = some (Fref m l) ∧ Sound U ∧ Ext T U := by
  rcases F_spec N fuel T m l hT hm hmN hl hlN with ⟨he, _⟩ | ⟨W, hW, hS, hE⟩
  · rw [he] at h
    cases h
  · rw [hW] at h
    cases h
    exact ⟨rfl, hS, hE⟩

/-! ## Correctness of the aggregator -/

theorem cel_loop_spec (N fuel m : Nat) (hm : 1 ≤ m) (hmN : m ≤ N) :
    ∀ (n i : Nat) (s : ℚ) (T : Table), Sound T → T m m = some (Fref m m) → 1 ≤ i → i + n = m →
      (cel_loop N fuel m n i (some s, T) = .error .outOfFuel ∧ fuel < m) ∨
      ∃ U, cel_loop N fuel m n i (some s, T)
          = .ok (some (s + ∑ j ∈ Finset.Ico i m, Fref m j / Fref m m), U)
        ∧ Sound U ∧ Ext T U := by
  intro n
  induction n with
  | zero =>
    intro i s T hT _ hi him
    right
    have : i = m := by omega
    subst this
    exact ⟨T, by simp [cel_loop], hT, Ext_refl T⟩
  | succ n ih =>
    intro i s T hT hd hi him
    have hiN : i ≤ N := by omega
    rw [cel_loop]
    rcases F_spec N fuel T m i hT hm hmN hi hiN with ⟨he, hP⟩ | ⟨U1, h1, hU1, hE1⟩
    · left
      rw [he]
      exact ⟨rfl, by omega⟩
    · rw [h1]
      simp only [bind, Except.bind]
      rw [wr_ok N U1 m i _ hmN hiN]
      simp only
      have hS2 : Sound (upd U1 m i (some (Fref m i))) := Sound_upd U1 m i hU1 hm hi
      have hE2 : Ext U1 (upd U1 m i (some (Fref m i))) := Ext_upd U1 m i hU1
      rw [rd_ok N _ m i hmN hiN, rd_ok N _ m m hmN hmN]
      simp only
      have hd2 : upd U1 m i (some (Fref m i)) m m = some (Fref m m) :=
        hE2 _ _ _ (hE1 _ _ _ hd)
      rw [hd2, upd_same]
      have hne : Fref m m ≠ 0 := ne_of_gt (Fref_pos m m hm (le_refl _))
      have hi1 : ((i : Int) + 1) = ((i + 1 : Nat) : Int) := by push_cast; rfl
      simp only [vdiv, if_neg hne, vadd]
      rw [hi1]
      rcases ih (i + 1) (s + Fref m i / Fref m m) _ hS2 hd2 (by omega) (by omega)
        with ⟨he, hP⟩ | ⟨U, h, hU, hE⟩
      · left
        exact ⟨he, hP⟩
      · right
        refine ⟨U, ?_, hU, Ext_trans (Ext_trans hE1 hE2) hE⟩
        rw [h]
        have hsum : ∑ j ∈ Finset.Ico i m, Fref m j / Fref m m
            = Fref m i / Fref m m + ∑ j ∈ Finset.Ico (i + 1) m, Fref m j / Fref m m := by
          rw [Finset.sum_eq_sum_Ico_succ_bot (by omega)]
        rw [hsum, add_assoc]

theorem compute_expected_length_spec (N fuel : Nat) (T : Table) (m : Nat) (hT : Sound T)
    (hm : 1 ≤ m) (hmN : m ≤ N) :
    (compute_expected_length N fuel T m = .error .outOfFuel ∧ fuel < m) ∨
    ESpec T m (compute_expected_length N fuel T m) := by
  unfold compute_expected_length
  rcases F_spec N fuel T m m hT hm hmN hm hmN with ⟨he, hP⟩ | ⟨U1, h1, hU1, hE1⟩
  · left
    rw [he]
    exact ⟨rfl, hP⟩
  · rw [h1]
    simp only [bind, Except.bind]
    rw [wr_ok N U1 m m _ hmN hmN]
    simp only
    have hS2 : Sound (upd U1 m m (some (Fref m m))) := Sound_upd U1 m m hU1 hm hm
    have hE2 : Ext U1 (upd U1 m m (some (Fref m m))) := Ext_upd U1 m m hU1
    have hn : ((m : Int) - 1).toNat = m - 1 := by omega
    rw [hn]
    have key := cel_loop_spec N fuel m hm hmN (m - 1) 1 0 _ hS2 (upd_same _ _ _ _)
      (le_refl _) (by omega)
    rw [Nat.cast_one] at key
    rcases key with ⟨he, hP⟩ | ⟨U, h, hU, hE⟩
    · left
      rw [he]
      exact ⟨rfl, hP⟩
    · right
      rw [h]
      refine ⟨U, ?_, hU, Ext_trans (Ext_trans hE1 hE2) hE⟩
      simp [vsub, Eref]

theorem compute_expected_length_total (N fuel : Nat) (T : Table) (m : Nat) (hT : Sound T)
    (hm : 1 ≤ m) (hmN : m ≤ N) (hf : m ≤ fuel) :
    ESpec T m (compute_expected_length N fuel T m) := by
  rcases compute_expected_length_spec N fuel T m hT hm hmN with ⟨_, h⟩ | h
  · omega
  · exact h

theorem compute_expected_length_of_ok (N fuel : Nat) (T U : Table) (m : Nat) (v : Val)
    (hT : Sound T) (hm : 1 ≤ m) (hmN : m ≤ N)
    (h : compute_expected_length N fuel T m = .ok (v, U)) :
    v = some (Eref m) ∧ Sound U ∧ Ext T U := by
  rcases compute_expected_length_spec N fuel T m hT hm hmN with ⟨he, _⟩ | ⟨W, hW, hS, hE⟩
  · rw [he] at h
    cases h
  · rw [hW] at h
    cases h
    exact ⟨rfl, hS, hE⟩

/-- Every reachable table is sound. -/
theorem Reachable.sound {N : Nat} {T : Table} (h : Reachable N T) : Sound T := by
  induction h with
  | init => exact Sound_allUnknown
  | callF fuel T U m l v _ hm hmN hl hlN hc ih =>
    obtain ⟨m, rfl⟩ := Int.eq_ofNat_of_zero_le (by omega : 0 ≤ m)
    obtain ⟨l, rfl⟩ := Int.eq_ofNat_of_zero_le (by omega : 0 ≤ l)
    exact (F_of_ok N fuel T U m l v ih (by omega) (by omega) (by omega) (by omega) hc).2.1
  | callE fuel T U m v _ hm hmN hc ih =>
    obtain ⟨m, rfl⟩ := Int.eq_ofNat_of_zero_le (by omega : 0 ≤ m)
    exact (compute_expected_length_of_ok N fuel T U m v ih (by omega) (by omega) hc).2.1

/-! ## The full run -/

theorem main_loop_spec (N fuel : Nat) (hf : N ≤ fuel) :
    ∀ (n k : Nat) (out : List (Int × Val)) (T : Table), Sound T → 1 ≤ k → k + n = N + 1 →
      ∃ U, main_loop N fuel n k (out, T) = .ok (out ++ linesFrom k n, U) ∧ Sound U ∧ Ext T U := by
  intro n
  induction n with
  | zero =>
    intro k out T hT _ _
    exact ⟨T, by simp [main_loop, linesFrom], hT, Ext_refl T⟩
  | succ n ih =>
    intro k out T hT hk hkn
    rw [main_loop]
    obtain ⟨U1, h1, hU1, hE1⟩ :=
      compute_expected_length_total N fuel T k hT hk (by omega) (by omega)
    rw [h1]
    simp only [bind, Except.bind]
    have hk1 : ((k : Int) + 1) = ((k + 1 : Nat) : Int) := by push_cast; rfl
    rw [hk1]
    obtain ⟨U, h, hU, hE⟩ := ih (k + 1) (out ++ [((k : Int), some (Eref k))]) U1 hU1
      (by omega) (by omega)
    refine ⟨U, ?_, hU, Ext_trans hE1 hE⟩
    rw [h]
    simp [linesFrom, List.range'_succ]

theorem main_spec (N fuel : Nat) (hf : N ≤ fuel) : main N fuel = .ok (linesFrom 1 N) := by
  unfold main
  obtain ⟨U, h, _, _⟩ := main_loop_spec N fuel hf N 1 [] allUnknown Sound_allUnknown
    (le_refl _) (by omega)
  rw [Nat.cast_one] at h
  rw [h]
  simp [bind, Except.bind]

theorem linesFrom_get (N m : Nat) (hm : 1 ≤ m) (hmN : m ≤ N) :
    (linesFrom 1 N)[m - 1]? = some ((m : Int), some (Eref m)) := by
  unfold linesFrom
  rw [List.getElem?_map, List.getElem?_range' _ _ (by omega)]
  have h : 1 + 1 * (m - 1) = m := by omega
  rw [h]
  rfl

/-! ## Monotonicity in the length and bounds on the aggregate -/

theorem Fref_mono_succ (l : Nat) (hl : 1 ≤ l) : ∀ m, Fref m l ≤ Fref m (l + 1) := by
  induction l, hl using Nat.le_induction with
  | base =>
    intro m
    by_cases h1 : m = 1
    · subst h1
      rw [Fref_one, Fref_one]
    · rw [Fref_len_one m h1]
      exact Fref_nonneg m 2
  | succ l hl ih =>
    intro m
    by_cases h1 : m = 1
    · subst h1
      rw [Fref_one, Fref_one]
    · rw [Fref_rec m l h1 hl, Fref_rec m (l + 1) h1 (by omega)]
      apply mul_le_mul_of_nonneg_left _ (by norm_num)
      apply Finset.sum_le_sum
      intro i _
      exact mul_le_mul (ih i) (ih (m - i)) (Fref_nonneg _ _) (Fref_nonneg _ _)

theorem Fref_mono (m l k : Nat) (hl : 1 ≤ l) (hlk : l ≤ k) : Fref m l ≤ Fref m k := by
  induction k, hlk using Nat.le_induction with
  | base => exact le_refl _
  | succ k hk ih => exact le_trans ih (Fref_mono_succ k (by omega) m)

theorem Eref_le (m : Nat) : Eref m ≤ m := by
  unfold Eref
  have : 0 ≤ ∑ i ∈ Finset.Ico 1 m, Fref m i / Fref m m :=
    Finset.sum_nonneg fun i _ => div_nonneg (Fref_nonneg _ _) (Fref_nonneg _ _)
  linarith

theorem one_le_Eref (m : Nat) (hm : 1 ≤ m) : 1 ≤ Eref m := by
  unfold Eref
  have hpos : 0 < Fref m m := Fref_pos m m hm (le_refl _)
  have h1 : ∑ i ∈ Finset.Ico 1 m, Fref m i / Fref m m ≤ ∑ _i ∈ Finset.Ico 1 m, (1 : ℚ) := by
    apply Finset.sum_le_sum
    intro i hi
    rw [Finset.mem_Ico] at hi
    rw [div_le_one hpos]
    exact Fref_mono m i m hi.1 (by omega)
  have h2 : ∑ _i ∈ Finset.Ico 1 m, (1 : ℚ) = (m : ℚ) - 1 := by
    simp [Nat.cast_sub hm]
  linarith

/-! ## Networks as binary plane trees -/

theorem mem_treesHeightLe (n h : Nat) (t : Tree Unit) :
    t ∈ treesHeightLe n h ↔ t.numNodes = n ∧ t.height ≤ h := by
  simp [treesHeightLe]

theorem treesHeightLe_zero_nodes (h : Nat) : treesHeightLe 0 h = {Tree.nil} := by
  ext t
  rw [mem_treesHeightLe, Finset.mem_singleton]
  constructor
  · rintro ⟨h0, _⟩
    cases t with
    | nil => rfl
    | node a l r => simp [Tree.numNodes] at h0
  · rintro rfl
    simp [Tree.numNodes, Tree.height]

theorem treesHeightLe_zero_height (n : Nat) : treesHeightLe (n + 1) 0 = ∅ := by
  ext t
  rw [mem_treesHeightLe]
  cases t with
  | nil => simp [Tree.numNodes]
  | node a l r => simp [Tree.height]

theorem treesHeightLe_succ (n h : Nat) :
    treesHeightLe (n + 1) (h + 1) =
      (Finset.antidiagonal n).biUnion fun ij =>
        Tree.pairwiseNode (treesHeightLe ij.1 h) (treesHeightLe ij.2 h) := by
  ext t
  rw [mem_treesHeightLe]
  cases t with
  | nil => simp [Tree.numNodes]
  | node a l r =>
    simp only [Tree.numNodes, Tree.height, Finset.mem_biUnion, Finset.mem_antidiagonal,
      Finset.mem_map, Finset.mem_product, Function.Embedding.coeFn_mk, Prod.exists,
      mem_treesHeightLe, Tree.node.injEq, true_and]
    constructor
    · rintro ⟨hn, hh⟩
      refine ⟨l.numNodes, r.numNodes, by omega, l, r, ⟨⟨rfl, ?_⟩, ⟨rfl, ?_⟩⟩, rfl, rfl⟩
      · have := le_max_left l.height r.height
        omega
      · have := le_max_right l.height r.height
        omega
    · rintro ⟨i, j, hij, l', r', ⟨⟨hl1, hl2⟩, ⟨hr1, hr2⟩⟩, rfl, rfl⟩
      refine ⟨by omega, ?_⟩
      have := max_le hl2 hr2
      omega

theorem card_treesHeightLe_succ (n h : Nat) :
    (treesHeightLe (n + 1) (h + 1)).card =
      ∑ ij ∈ Finset.antidiagonal n, (treesHeightLe ij.1 h).card * (treesHeightLe ij.2 h).card := by
  rw [treesHeightLe_succ, Finset.card_biUnion]
  · apply Finset.sum_congr rfl
    rintro ⟨i, j⟩ _
    rw [Finset.card_map, Finset.card_product]
  · rintro ⟨i, j⟩ _ ⟨i', j'⟩ _ hne
    rw [Finset.disjoint_left]
    intro t h1 h2
    apply hne
    simp only [Finset.mem_map, Finset.mem_product, Function.Embedding.coeFn_mk, Prod.exists,
      mem_treesHeightLe] at h1 h2
    obtain ⟨l, r, ⟨⟨hl, _⟩, ⟨hr, _⟩⟩, rfl⟩ := h1
    obtain ⟨l', r', ⟨⟨hl', _⟩, ⟨hr', _⟩⟩, heq⟩ := h2
    simp only [Tree.node.injEq, true_and] at heq
    obtain ⟨rfl, rfl⟩ := heq
    rw [← hl, ← hr, ← hl', ← hr']

theorem sum_Ico_eq_sum_antidiagonal (g : Nat → Nat → ℚ) (n : Nat) :
    ∑ i ∈ Finset.Ico 1 (n + 2), g i (n + 2 - i)
      = ∑ ij ∈ Finset.antidiagonal n, g (ij.1 + 1) (ij.2 + 1) := by
  rw [Finset.Nat.sum_antidiagonal_eq_sum_range_succ_mk, Finset.sum_Ico_eq_sum_range]
  apply Finset.sum_congr (by simp)
  intro k hk
  rw [Finset.mem_range] at hk
  have h1 : 1 + k = k + 1 := by omega
  have h2 : n + 2 - (k + 1) = n - k + 1 := by omega
  rw [h1, h2]

/-- The value `Fref m l`, scaled by `2^(2m-1)`, counts the binary plane trees with `m`
leaves and height at most `l - 1`; stated with `m = n + 1` and `l = h + 1`. -/
theorem Fref_counts (h : Nat) : ∀ n : Nat,
    Fref (n + 1) (h + 1) * 2 ^ (2 * n + 1) = ((treesHeightLe n h).card : ℚ) := by
  induction h with
  | zero =>
    intro n
    cases n with
    | zero => simp [Fref_one, treesHeightLe_zero_nodes]
    | succ n => simp [Fref_len_one, treesHeightLe_zero_height]
  | succ h ih =>
    intro n
    cases n with
    | zero => simp [Fref_one, treesHeightLe_zero_nodes]
    | succ n =>
      rw [Fref_rec (n + 1 + 1) (h + 1) (by omega) (by omega), card_treesHeightLe_succ,
        sum_Ico_eq_sum_antidiagonal (fun i j => Fref i (h + 1) * Fref j (h + 1)) n]
      push_cast
      rw [Finset.mul_sum, Finset.sum_mul]
      apply Finset.sum_congr rfl
      rintro ⟨a, b⟩ hab
      rw [Finset.mem_antidiagonal] at hab
      simp only at hab ⊢
      rw [← ih a, ← ih b, ← hab]
      ring

theorem treesHeightLe_of_le (n h : Nat) (hn : n ≤ h) :
    treesHeightLe n h = Tree.treesOfNumNodesEq n := by
  unfold treesHeightLe
  apply Finset.filter_true_of_mem
  intro t ht
  rw [Tree.mem_treesOfNumNodesEq] at ht
  have := t.height_le_numNodes
  omega

theorem card_treesHeightLe_le (n h : Nat) : (treesHeightLe n h).card ≤ catalan n := by
  rw [← Tree.treesOfNumNodesEq_card_eq_catalan]
  exact Finset.card_filter_le _ _

theorem catalan_le_four_pow (n : Nat) : catalan n ≤ 4 ^ n := by
  have h1 : catalan n ≤ n.centralBinom := by
    rw [← succ_mul_catalan_eq_centralBinom]
    exact Nat.le_mul_of_pos_left _ (by omega)
  have h2 : n.centralBinom ≤ 4 ^ n := by
    rw [Nat.centralBinom_eq_two_mul_choose]
    have h3 : (4 : Nat) ^ n = 2 ^ (2 * n) := by
      rw [pow_mul]
      norm_num
    rw [h3, ← Nat.sum_range_choose (2 * n)]
    have hmem : n ∈ Finset.range (2 * n + 1) := Finset.mem_range.mpr (by omega)
    exact Finset.single_le_sum (fun i _ => Nat.zero_le ((2 * n).choose i)) hmem
  exact le_trans h1 h2

/-- On the diagonal the scaled value is the Catalan number. -/
theorem Fref_diag (n : Nat) : Fref (n + 1) (n + 1) * 2 ^ (2 * n + 1) = (catalan n : ℚ) := by
  rw [Fref_counts n n, treesHeightLe_of_le n n (le_refl _), Tree.treesOfNumNodesEq_card_eq_catalan]

theorem Fref_le_half (m l : Nat) (hm : 1 ≤ m) (hl : 1 ≤ l) : Fref m l ≤ 1 / 2 := by
  obtain ⟨n, rfl⟩ : ∃ n, m = n + 1 := ⟨m - 1, by omega⟩
  obtain ⟨h, rfl⟩ : ∃ h, l = h + 1 := ⟨l - 1, by omega⟩
  have hc := Fref_counts h n
  have hle : ((treesHeightLe n h).card : ℚ) ≤ (4 : ℚ) ^ n := by
    have := le_trans (card_treesHeightLe_le n h) (catalan_le_four_pow n)
    exact_mod_cast this
  have hpow : (2 : ℚ) ^ (2 * n + 1) = 2 * 4 ^ n := by
    rw [pow_succ, pow_mul]
    norm_num
    ring
  have hpos : (0 : ℚ) < 4 ^ n := by positivity
  rw [hpow] at hc
  nlinarith

theorem networkLength_eq (t : Tree Unit) : networkLength t = t.height + 1 := by
  induction t with
  | nil => rfl
  | node a l r ihl ihr =>
    simp only [networkLength, Tree.height, ihl, ihr]
    omega

theorem mem_networks (m : Nat) (hm : 1 ≤ m) (t : Tree Unit) :
    t ∈ networks m ↔ t.numLeaves = m := by
  unfold networks
  rw [Tree.mem_treesOfNumNodesEq, Tree.numLeaves_eq_numNodes_succ]
  omega

theorem card_networks (m : Nat) : (networks m).card = catalan (m - 1) :=
  Tree.treesOfNumNodesEq_card_eq_catalan (m - 1)

theorem sum_indicator_height (n k : Nat) (hk : k ≤ n) :
    ∑ i ∈ Finset.Ico 1 (n + 1), (if k ≤ i - 1 then (1 : ℚ) else 0) = (n : ℚ) - k := by
  rw [Finset.sum_boole]
  have hset : (Finset.Ico 1 (n + 1)).filter (fun i => k ≤ i - 1) = Finset.Ico (k + 1) (n + 1) := by
    ext i
    simp only [Finset.mem_filter, Finset.mem_Ico]
    omega
  rw [hset, Nat.card_Ico]
  have : n + 1 - (k + 1) = n - k := by omega
  rw [this, Nat.cast_sub hk]

theorem sum_card_treesHeightLe (n : Nat) :
    ∑ i ∈ Finset.Ico 1 (n + 1), ((treesHeightLe n (i - 1)).card : ℚ)
      = ∑ t ∈ Tree.treesOfNumNodesEq n, ((n : ℚ) - t.height) := by
  have h1 : ∀ i ∈ Finset.Ico 1 (n + 1), ((treesHeightLe n (i - 1)).card : ℚ)
      = ∑ t ∈ Tree.treesOfNumNodesEq n, (if t.height ≤ i - 1 then (1 : ℚ) else 0) := by
    intro i _
    rw [Finset.sum_boole]
    rfl
  rw [Finset.sum_congr rfl h1, Finset.sum_comm]
  apply Finset.sum_congr rfl
  intro t ht
  rw [Tree.mem_treesOfNumNodesEq] at ht
  apply sum_indicator_height
  have := t.height_le_numNodes
  omega

theorem sum_networkLength (n : Nat) :
    ∑ t ∈ Tree.treesOfNumNodesEq n, (networkLength t : ℚ)
      = ((n : ℚ) + 1) * catalan n
        - ∑ i ∈ Finset.Ico 1 (n + 1), ((treesHeightLe n (i - 1)).card : ℚ) := by
  rw [sum_card_treesHeightLe, ← Tree.treesOfNumNodesEq_card_eq_catalan, eq_sub_iff_add_eq,
    ← Finset.sum_add_distrib]
  have h : ∀ t ∈ Tree.treesOfNumNodesEq n,
      (networkLength t : ℚ) + ((n : ℚ) - t.height) = (n : ℚ) + 1 := by
    intro t _
    rw [networkLength_eq]
    push_cast
    ring
  rw [Finset.sum_congr rfl h, Finset.sum_const, nsmul_eq_mul]
  ring

/-- The aggregator formula is the mean network length. -/
theorem Eref_eq_meanLength (m : Nat) (hm : 1 ≤ m) : Eref m = meanLength m := by
  obtain ⟨n, rfl⟩ : ∃ n, m = n + 1 := ⟨m - 1, by omega⟩
  unfold Eref meanLength networks
  have hn : n + 1 - 1 = n := by omega
  rw [hn, sum_networkLength, Tree.treesOfNumNodesEq_card_eq_catalan]
  have hC : (0 : ℚ) < catalan n := by
    have := Fref_pos (n + 1) (n + 1) (by omega) (le_refl _)
    have h2 := Fref_diag n
    have hp : (0 : ℚ) < 2 ^ (2 * n + 1) := by positivity
    rw [← h2]
    exact mul_pos this hp
  have hterm : ∀ i ∈ Finset.Ico 1 (n + 1), Fref (n + 1) i / Fref (n + 1) (n + 1)
      = ((treesHeightLe n (i - 1)).card : ℚ) / catalan n := by
    intro i hi
    rw [Finset.mem_Ico] at hi
    obtain ⟨h, rfl⟩ : ∃ h, i = h + 1 := ⟨i - 1, by omega⟩
    have hh : h + 1 - 1 = h := by omega
    rw [hh, ← Fref_counts h n, ← Fref_diag n]
    have hp : (2 : ℚ) ^ (2 * n + 1) ≠ 0 := by positivity
    rw [mul_div_mul_right _ _ hp]
  rw [Finset.sum_congr rfl hterm, ← Finset.sum_div]
  push_cast
  field_simp

/-! ## Base cases without recursion -/

theorem F_magnitude_one (N fuel : Nat) (T : Table) (l : Nat) (hT : Sound T)
    (hl : 1 ≤ l) (hlN : l ≤ N) (hf : 1 ≤ fuel) :
    F N fuel T 1 l = .ok (some (1 / 2), T) := by
  obtain ⟨f, rfl⟩ : ∃ f, fuel = f + 1 := ⟨fuel - 1, by omega⟩
  have hr := rd_ok N T 1 l (by omega) hlN
  rw [Nat.cast_one] at hr
  rw [F, hr]
  simp only [bind, Except.bind]
  cases hc : T 1 l with
  | none => simp
  | some q =>
    have hq := (hT _ _ q hc).2.2
    simp only [Int.toNat_ofNat, Int.toNat_one, Fref_one] at hq
    simp [hq]

theorem F_length_one (N fuel : Nat) (T : Table) (m : Nat) (hT : Sound T)
    (hm : 2 ≤ m) (hmN : m ≤ N) (hf : 1 ≤ fuel) :
    F N fuel T m 1 = .ok (some 0, T) := by
  obtain ⟨f, rfl⟩ : ∃ f, fuel = f + 1 := ⟨fuel - 1, by omega⟩
  have hr := rd_ok N T m 1 hmN (by omega)
  rw [Nat.cast_one] at hr
  rw [F, hr]
  simp only [bind, Except.bind]
  have h1i : ¬ ((m : Int) = 1) := by omega
  cases hc : T m 1 with
  | none => simp [h1i]
  | some q =>
    have hq := (hT _ _ q hc).2.2
    simp only [Int.toNat_ofNat, Int.toNat_one] at hq
    rw [Fref_len_one m (by omega)] at hq
    simp [hq]

theorem Eref_one : Eref 1 = 1 := by
  simp [Eref]

theorem Eref_two : Eref 2 = 2 := by
  simp [Eref, Fref_len_one]

theorem Fref_two_two : Fref 2 2 = 1 / 8 := by
  norm_num [Fref]

theorem Eref_four : Eref 4 = 19 / 5 := by
  norm_num [Eref, Fref, Finset.sum_Ico_succ_top]

theorem warm_reachable : Reachable 2 warm := by
  refine Reachable.callF 2 allUnknown warm 2 2 (some (1 / 8)) Reachable.init
    (by decide) (by decide) (by decide) (by decide) ?_
  simp [F, F_loop, rd, wr, inRange, allUnknown, upd, vadd, vmul, bind, Except.bind, warm]
  norm_num


/-! ## The claims -/

/-- Claim C1 (recurrence exactness). For `2 ≤ l ≤ m ≤ N` and fuel at least `l`, the call
`F(m, l)` on the all-unknown table returns `0.5 * Σ_{i=1}^{m-1} g i * g (m - i)`, where
`g i` is the value that the call `F(i, l - 1)` returns on the all-unknown table. -/
theorem C1_recurrence_exact (N fuel m l : Nat) (hl : 2 ≤ l) (hlm : l ≤ m) (hmN : m ≤ N)
    (hf : l ≤ fuel) :
    ∃ g : Nat → ℚ,
      (∀ i : Nat, 1 ≤ i → i < m →
        ∃ V, F N fuel allUnknown (i : Int) ((l : Int) - 1) = .ok (some (g i), V)) ∧
      ∃ U, F N fuel allUnknown (m : Int) (l : Int)
        = .ok (some (1 / 2 * ∑ i ∈ Finset.Ico 1 m, g i * g (m - i)), U) := by
  obtain ⟨k, rfl⟩ : ∃ k, l = k + 1 := ⟨l - 1, by omega⟩
  refine ⟨fun i => Fref i k, ?_, ?_⟩
  · intro i hi him
    have hc : ((k + 1 : Nat) : Int) - 1 = (k : Int) := by omega
    rw [hc]
    obtain ⟨V, hV, _, _⟩ := F_total N fuel allUnknown i k Sound_allUnknown hi (by omega)
      (by omega) (by omega) (by omega)
    exact ⟨V, hV⟩
  · obtain ⟨U, hU, _, _⟩ := F_total N fuel allUnknown m (k + 1) Sound_allUnknown (by omega)
      hmN (by omega) (by omega) hf
    refine ⟨U, ?_⟩
    rw [hU, Fref_rec m k (by omega) (by omega)]

/-- Witness of C1 at `N = 3`, `m = 3`, `l = 2`. -/
theorem C1_recurrence_exact_witness :
    ∃ g : Nat → ℚ,
      (∀ i : Nat, 1 ≤ i → i < 3 →
        ∃ V, F 3 2 allUnknown (i : Int) (((2 : Nat) : Int) - 1) = .ok (some (g i), V)) ∧
      ∃ U, F 3 2 allUnknown ((3 : Nat) : Int) ((2 : Nat) : Int)
        = .ok (some (1 / 2 * ∑ i ∈ Finset.Ico 1 3, g i * g (3 - i)), U) :=
  C1_recurrence_exact 3 2 3 2 (by decide) (by decide) (by decide) (by decide)

/-- Claim C2 (memoisation transparency). On every table reachable from the all-unknown
table by returning calls of `F` and `compute_expected_length` with arguments in `1..N`,
the call `F(m, l)` with `m, l` in `1..N` returns the value it returns on the all-unknown
table, namely the memo-free recurrence value; and every computed entry of a reachable
table is the memo-free recurrence value of its index pair. -/
theorem C2_memo_transparent (N fuel : Nat) (T : Table) (m l : Nat) (hT : Reachable N T)
    (hm : 1 ≤ m) (hmN : m ≤ N) (hl : 1 ≤ l) (hlN : l ≤ N) (hf : l ≤ fuel) :
    (∃ v U V, F N fuel T m l = .ok (some v, U) ∧ F N fuel allUnknown m l = .ok (some v, V)
      ∧ v = Fref m l) ∧
    (∀ (a b : Int) (q : ℚ), T a b = some q → q = Fref a.toNat b.toNat) := by
  constructor
  · obtain ⟨U, hU, _, _⟩ := F_total N fuel T m l hT.sound hm hmN hl hlN hf
    obtain ⟨V, hV, _, _⟩ := F_total N fuel allUnknown m l Sound_allUnknown hm hmN hl hlN hf
    exact ⟨Fref m l, U, V, hU, hV, rfl⟩
  · intro a b q h
    exact (hT.sound a b q h).2.2

/-- Witness of C2 on the table left by `F(2, 2)`, for `N = 2`, `m = 2`, `l = 2`. -/
theorem C2_memo_transparent_witness :
    (∃ v U V, F 2 2 warm ((2 : Nat) : Int) ((2 : Nat) : Int) = .ok (some v, U)
      ∧ F 2 2 allUnknown ((2 : Nat) : Int) ((2 : Nat) : Int) = .ok (some v, V)
      ∧ v = Fref 2 2) ∧
    (∀ (a b : Int) (q : ℚ), warm a b = some q → q = Fref a.toNat b.toNat) :=
  C2_memo_transparent 2 2 warm 2 2 warm_reachable (by decide) (by decide) (by decide)
    (by decide) (by decide)

/-- Claim C3 (aggregator formula). On every reachable table, for `1 ≤ m ≤ N` and fuel at
least `m`, `compute_expected_length(m)` returns
`m - Σ_{i=1}^{m-1} Fref m i / Fref m m`, with `Fref` the memo-free recurrence. -/
theorem C3_aggregator_formula (N fuel : Nat) (T : Table) (m : Nat) (hT : Reachable N T)
    (hm : 1 ≤ m) (hmN : m ≤ N) (hf : m ≤ fuel) :
    ∃ U, compute_expected_length N fuel T m
      = .ok (some ((m : ℚ) - ∑ i ∈ Finset.Ico 1 m, Fref m i / Fref m m), U) := by
  obtain ⟨U, hU, _, _⟩ := compute_expected_length_total N fuel T m hT.sound hm hmN hf
  exact ⟨U, hU⟩

/-- Witness of C3 on the table left by `F(2, 2)`, for `N = 2`, `m = 2`. -/
theorem C3_aggregator_formula_witness :
    ∃ U, compute_expected_length 2 2 warm ((2 : Nat) : Int)
      = .ok (some (((2 : Nat) : ℚ) - ∑ i ∈ Finset.Ico 1 2, Fref 2 i / Fref 2 2), U) :=
  C3_aggregator_formula 2 2 warm 2 warm_reachable (by decide) (by decide) (by decide)

/-- Claim C4 (non-zero normaliser). On every reachable table, for `1 ≤ m ≤ N`, the value
`F(m, m)` is strictly positive, and `compute_expected_length(m)` never divides by zero,
whatever the fuel. -/
theorem C4_normalizer_pos (N fuel : Nat) (T : Table) (m : Nat) (hT : Reachable N T)
    (hm : 1 ≤ m) (hmN : m ≤ N) (hf : m ≤ fuel) :
    (∃ q U, F N fuel T m m = .ok (some q, U) ∧ 0 < q) ∧
    (∀ fuel2 : Nat, compute_expected_length N fuel2 T m ≠ .error .divByZero) := by
  constructor
  · obtain ⟨U, hU, _, _⟩ := F_total N fuel T m m hT.sound hm hmN hm hmN hf
    exact ⟨Fref m m, U, hU, Fref_pos m m hm (le_refl _)⟩
  · intro fuel2 hbad
    rcases compute_expected_length_spec N fuel2 T m hT.sound hm hmN with ⟨he, _⟩ | ⟨U, hU, _, _⟩
    · rw [he] at hbad
      cases hbad
    · rw [hU] at hbad
      cases hbad

/-- Witness of C4 on the all-unknown table, for `N = 3`, `m = 3`. -/
theorem C4_normalizer_pos_witness :
    (∃ q U, F 3 3 allUnknown ((3 : Nat) : Int) ((3 : Nat) : Int) = .ok (some q, U) ∧ 0 < q) ∧
    (∀ fuel2 : Nat,
      compute_expected_length 3 fuel2 allUnknown ((3 : Nat) : Int) ≠ .error .divByZero) :=
  C4_normalizer_pos 3 3 allUnknown 3 Reachable.init (by decide) (by decide) (by decide)

/-- Claim C5 (expected-length bounds). In the full run for any `N`, with fuel at least
`N`, the line written for each magnitude `m` in `1..N` carries a number `e` with
`0 ≤ e ≤ m`. -/
theorem C5_expected_length_bounds (N fuel m : Nat) (hf : N ≤ fuel) (hm : 1 ≤ m)
    (hmN : m ≤ N) :
    ∃ out e, main N fuel = .ok out ∧ out.length = N ∧
      out[m - 1]? = some ((m : Int), some e) ∧ 0 ≤ e ∧ e ≤ (m : ℚ) := by
  refine ⟨linesFrom 1 N, Eref m, main_spec N fuel hf, by simp [linesFrom],
    linesFrom_get N m hm hmN, ?_, Eref_le m⟩
  have := one_le_Eref m hm
  linarith

/-- Witness of C5 for `N = 5`, `m = 4`. -/
theorem C5_expected_length_bounds_witness :
    ∃ out e, main 5 5 = .ok out ∧ out.length = 5 ∧
      out[4 - 1]? = some (((4 : Nat) : Int), some e) ∧ 0 ≤ e ∧ e ≤ ((4 : Nat) : ℚ) :=
  C5_expected_length_bounds 5 5 4 (by decide) (by decide) (by decide)


/-- Claim C6 (probability range). On every reachable table, the value returned by
`F(m, l)` for `m, l` in `1..N` lies in `[0, 1]`; and every computed entry of a reachable
table, in particular of the table left by the call, lies in `[0, 1]`. -/
theorem C6_probability_range (N fuel : Nat) (T : Table) (m l : Nat) (hT : Reachable N T)
    (hm : 1 ≤ m) (hmN : m ≤ N) (hl : 1 ≤ l) (hlN : l ≤ N) (hf : l ≤ fuel) :
    (∃ q U, F N fuel T m l = .ok (some q, U) ∧ 0 ≤ q ∧ q ≤ 1 ∧
      ∀ (a b : Int) (x : ℚ), U a b = some x → 0 ≤ x ∧ x ≤ 1) ∧
    (∀ (a b : Int) (x : ℚ), T a b = some x → 0 ≤ x ∧ x ≤ 1) := by
  have key : ∀ W : Table, Sound W → ∀ (a b : Int) (x : ℚ), W a b = some x → 0 ≤ x ∧ x ≤ 1 := by
    intro W hW a b x h
    obtain ⟨ha, hb, rfl⟩ := hW a b x h
    have := Fref_le_half a.toNat b.toNat (by omega) (by omega)
    exact ⟨Fref_nonneg _ _, by linarith⟩
  constructor
  · obtain ⟨U, hU, hS, _⟩ := F_total N fuel T m l hT.sound hm hmN hl hlN hf
    have := Fref_le_half m l hm hl
    exact ⟨Fref m l, U, hU, Fref_nonneg m l, by linarith, key U hS⟩
  · exact key T hT.sound

/-- Witness of C6 on the table left by `F(2, 2)`, for `N = 2`, `m = 2`, `l = 2`. -/
theorem C6_probability_range_witness :
    (∃ q U, F 2 2 warm ((2 : Nat) : Int) ((2 : Nat) : Int) = .ok (some q, U) ∧ 0 ≤ q ∧ q ≤ 1 ∧
      ∀ (a b : Int) (x : ℚ), U a b = some x → 0 ≤ x ∧ x ≤ 1) ∧
    (∀ (a b : Int) (x : ℚ), warm a b = some x → 0 ≤ x ∧ x ≤ 1) :=
  C6_probability_range 2 2 warm 2 2 warm_reachable (by decide) (by decide) (by decide)
    (by decide) (by decide)

/-- Claim C7 (base cases). On every reachable table and with any non-zero fuel, `F(1, l)`
returns `0.5` for every `l` in `1..N`, and `F(m, 1)` returns `0` for every `m` with
`2 ≤ m ≤ N`; neither call changes the table. -/
theorem C7_base_cases (N fuel : Nat) (T : Table) (hT : Reachable N T) (hf : 1 ≤ fuel) :
    (∀ l : Nat, 1 ≤ l → l ≤ N → F N fuel T 1 (l : Int) = .ok (some (1 / 2), T)) ∧
    (∀ m : Nat, 2 ≤ m → m ≤ N → F N fuel T (m : Int) 1 = .ok (some 0, T)) :=
  ⟨fun l hl hlN => F_magnitude_one N fuel T l hT.sound hl hlN hf,
   fun m hm hmN => F_length_one N fuel T m hT.sound hm hmN hf⟩

/-- Witness of C7 on the table left by `F(2, 2)`, for `N = 2` and fuel `1`. -/
theorem C7_base_cases_witness :
    (∀ l : Nat, 1 ≤ l → l ≤ 2 → F 2 1 warm 1 (l : Int) = .ok (some (1 / 2), warm)) ∧
    (∀ m : Nat, 2 ≤ m → m ≤ 2 → F 2 1 warm (m : Int) 1 = .ok (some 0, warm)) :=
  C7_base_cases 2 1 warm warm_reachable (by decide)

/-- Claim C8 (write-once memo). On a reachable table `T`, for arguments in `1..N`:
whenever `F(m, l)` or `compute_expected_length(m)` returns, every entry computed in `T`
holds the same value in the resulting table; both calls do return given enough fuel; and
the same holds for the rest of the full run started from `T` at any magnitude `k`. -/
theorem C8_write_once (N fuel : Nat) (T : Table) (m l : Nat) (hT : Reachable N T)
    (hm : 1 ≤ m) (hmN : m ≤ N) (hl : 1 ≤ l) (hlN : l ≤ N) :
    (∀ v U, F N fuel T m l = .ok (v, U) →
      ∀ (a b : Int) (q : ℚ), T a b = some q → U a b = some q) ∧
    (∀ v U, compute_expected_length N fuel T m = .ok (v, U) →
      ∀ (a b : Int) (q : ℚ), T a b = some q → U a b = some q) ∧
    (l ≤ fuel → ∃ v U, F N fuel T m l = .ok (v, U)) ∧
    (m ≤ fuel → ∃ v U, compute_expected_length N fuel T m = .ok (v, U)) ∧
    (N ≤ fuel → ∀ (n k : Nat) (out : List (Int × Val)), 1 ≤ k → k + n = N + 1 →
      ∃ res U, main_loop N fuel n k (out, T) = .ok (res, U) ∧
        ∀ (a b : Int) (q : ℚ), T a b = some q → U a b = some q) := by
  refine ⟨?_, ?_, ?_, ?_, ?_⟩
  · intro v U h
    exact (F_of_ok N fuel T U m l v hT.sound hm hmN hl hlN h).2.2
  · intro v U h
    exact (compute_expected_length_of_ok N fuel T U m v hT.sound hm hmN h).2.2
  · intro hf
    obtain ⟨U, hU, _, _⟩ := F_total N fuel T m l hT.sound hm hmN hl hlN hf
    exact ⟨_, U, hU⟩
  · intro hf
    obtain ⟨U, hU, _, _⟩ := compute_expected_length_total N fuel T m hT.sound hm hmN hf
    exact ⟨_, U, hU⟩
  · intro hf n k out hk hkn
    obtain ⟨U, hU, _, hE⟩ := main_loop_spec N fuel hf n k out T hT.sound hk hkn
    exact ⟨_, U, hU, hE⟩

/-- Witness of C8 on the table left by `F(2, 2)`, for `N = 2`, `m = 2`, `l = 2`. -/
theorem C8_write_once_witness :
    (∀ v U, F 2 2 warm ((2 : Nat) : Int) ((2 : Nat) : Int) = .ok (v, U) →
      ∀ (a b : Int) (q : ℚ), warm a b = some q → U a b = some q) ∧
    (∀ v U, compute_expected_length 2 2 warm ((2 : Nat) : Int) = .ok (v, U) →
      ∀ (a b : Int) (q : ℚ), warm a b = some q → U a b = some q) ∧
    (2 ≤ 2 → ∃ v U, F 2 2 warm ((2 : Nat) : Int) ((2 : Nat) : Int) = .ok (v, U)) ∧
    (2 ≤ 2 → ∃ v U, compute_expected_length 2 2 warm ((2 : Nat) : Int) = .ok (v, U)) ∧
    (2 ≤ 2 → ∀ (n k : Nat) (out : List (Int × Val)), 1 ≤ k → k + n = 2 + 1 →
      ∃ res U, main_loop 2 2 n k (out, warm) = .ok (res, U) ∧
        ∀ (a b : Int) (q : ℚ), warm a b = some q → U a b = some q) :=
  C8_write_once 2 2 warm 2 2 warm_reachable (by decide) (by decide) (by decide) (by decide)

/-- Claim C9 (concrete boundary values). In the full run for any `N ≥ 1`, the line for
magnitude `1` is `1`, and for `N ≥ 2` the line for magnitude `2` is `2`, with
`F(2, 2) = 0.125` and `F(2, 1) = 0`. -/
theorem C9_boundary_values (N fuel : Nat) (hN : 1 ≤ N) (hf : N ≤ fuel) :
    ∃ out, main N fuel = .ok out ∧ out[0]? = some (1, some 1) ∧
      (2 ≤ N → out[1]? = some (2, some 2) ∧
        (∃ U, F N fuel allUnknown 2 2 = .ok (some (1 / 8), U)) ∧
        (∃ V, F N fuel allUnknown 2 1 = .ok (some 0, V))) := by
  refine ⟨linesFrom 1 N, main_spec N fuel hf, ?_, ?_⟩
  · have := linesFrom_get N 1 (le_refl _) hN
    rw [Eref_one] at this
    exact this
  · intro h2
    refine ⟨?_, ?_, ?_⟩
    · have := linesFrom_get N 2 (by omega) h2
      rw [Eref_two] at this
      exact this
    · obtain ⟨U, hU, _, _⟩ := F_total N fuel allUnknown 2 2 Sound_allUnknown (by omega) h2
        (by omega) h2 (by omega)
      rw [Fref_two_two] at hU
      exact ⟨U, hU⟩
    · exact ⟨allUnknown, F_length_one N fuel allUnknown 2 Sound_allUnknown (le_refl _) h2
        (by omega)⟩

/-- Witness of C9 for `N = 2`. -/
theorem C9_boundary_values_witness :
    ∃ out, main 2 2 = .ok out ∧ out[0]? = some (1, some 1) ∧
      (2 ≤ 2 → out[1]? = some (2, some 2) ∧
        (∃ U, F 2 2 allUnknown 2 2 = .ok (some (1 / 8), U)) ∧
        (∃ V, F 2 2 allUnknown 2 1 = .ok (some 0, V))) :=
  C9_boundary_values 2 2 (by decide) (by decide)

/-- Claim C10, amended. In exact rational arithmetic in place of double: on every
reachable table, for `1 ≤ m ≤ N`, `compute_expected_length(m)` returns the
arithmetic mean of the length over the networks of magnitude `m`; these are the binary
plane trees with `m` leaves, there are `Catalan(m - 1)` of them, the length of one is its
height plus `1`, and the mean for magnitude `4` is `19/5`. -/
theorem C10_expected_length_is_mean (N fuel : Nat) (T : Table) (m : Nat)
    (hT : Reachable N T) (hm : 1 ≤ m) (hmN : m ≤ N) (hf : m ≤ fuel) :
    (∃ U, compute_expected_length N fuel T m = .ok (some (meanLength m), U)) ∧
    (∀ t : Tree Unit, t ∈ networks m ↔ t.numLeaves = m) ∧
    (networks m).card = catalan (m - 1) ∧
    (∀ t : Tree Unit, networkLength t = t.height + 1) ∧
    meanLength 4 = 19 / 5 := by
  refine ⟨?_, mem_networks m hm, card_networks m, networkLength_eq, ?_⟩
  · obtain ⟨U, hU, _, _⟩ := compute_expected_length_total N fuel T m hT.sound hm hmN hf
    rw [Eref_eq_meanLength m hm] at hU
    exact ⟨U, hU⟩
  · rw [← Eref_eq_meanLength 4 (by omega), Eref_four]

/-- Witness of C10 on the all-unknown table, for `N = 4`, `m = 4`. -/
theorem C10_expected_length_is_mean_witness :
    (∃ U, compute_expected_length 4 4 allUnknown ((4 : Nat) : Int)
      = .ok (some (meanLength 4), U)) ∧
    (∀ t : Tree Unit, t ∈ networks 4 ↔ t.numLeaves = 4) ∧
    (networks 4).card = catalan (4 - 1) ∧
    (∀ t : Tree Unit, networkLength t = t.height + 1) ∧
    meanLength 4 = 19 / 5 :=
  C10_expected_length_is_mean 4 4 allUnknown 4 Reachable.init (by decide) (by decide)
    (by decide)

/-! ## Erasing the log -/

theorem F_loop_log_erase (call : Table → Int → Int → Res (Val × Table × List Event)) (N : Nat)
    (m l : Int) : ∀ (n : Nat) (i : Int) (s : Val) (T : Table) (log : List Event),
    F_loop (fun U a b => eraseLog (call U a b)) N m l n i (s, T)
      = eraseLog (F_loop_log call N m l n i (s, T, log)) := by
  intro n
  induction n with
  | zero =>
    intro i s T log
    rfl
  | succ n ih =>
    intro i s T log
    rw [F_loop, F_loop_log]
    simp only [bind, Except.bind]
    cases call T i (l - 1) with
    | error e => rfl
    | ok r1 =>
      obtain ⟨v1, T1, log1⟩ := r1
      simp only [eraseLog]
      cases wr N T1 i (l - 1) v1 with
      | error e => rfl
      | ok T2 =>
        simp only
        cases call T2 (m - i) (l - 1) with
        | error e => rfl
        | ok r2 =>
          obtain ⟨v2, T3, log2⟩ := r2
          simp only
          cases wr N T3 (m - i) (l - 1) v2 with
          | error e => rfl
          | ok T4 =>
            simp only
            cases rd N T4 i (l - 1) with
            | error e => rfl
            | ok a =>
              simp only
              cases rd N T4 (m - i) (l - 1) with
              | error e => rfl
              | ok b =>
                simp only
                exact ih _ _ _ _

theorem F_log_erase (N : Nat) : ∀ (fuel : Nat) (T : Table) (m l : Int),
    F N fuel T m l = eraseLog (F_log N fuel T m l) := by
  intro fuel
  induction fuel with
  | zero =>
    intro T m l
    rfl
  | succ fuel ih =>
    intro T m l
    have hcall : F N fuel = fun U a b => eraseLog (F_log N fuel U a b) := by
      funext U a b
      exact ih U a b
    rw [F, F_log, hcall]
    simp only [bind, Except.bind]
    cases rd N T m l with
    | error e => rfl
    | ok c =>
      simp only
      split
      · rfl
      · split
        · rfl
        · split
          · rfl
          · rw [F_loop_log_erase (F_log N fuel) N m l _ _ _ _ [Event.lookup m l false]]
            cases F_loop_log (F_log N fuel) N m l (m - 1).toNat 1
                (some 0, T, [Event.lookup m l false]) with
            | error e => rfl
            | ok r =>
              obtain ⟨s, U, log⟩ := r
              rfl

theorem cel_loop_log_erase (N fuel : Nat) (m : Int) :
    ∀ (n : Nat) (i : Int) (s : Val) (T : Table) (log : List Event),
    cel_loop N fuel m n i (s, T) = eraseLog (cel_loop_log N fuel m n i (s, T, log)) := by
  intro n
  induction n with
  | zero =>
    intro i s T log
    rfl
  | succ n ih =>
    intro i s T log
    rw [cel_loop, cel_loop_log, F_log_erase]
    simp only [bind, Except.bind]
    cases F_log N fuel T m i with
    | error e => rfl
    | ok r1 =>
      obtain ⟨v1, T1, log1⟩ := r1
      simp only [eraseLog]
      cases wr N T1 m i v1 with
      | error e => rfl
      | ok T2 =>
        simp only
        cases rd N T2 m i with
        | error e => rfl
        | ok a =>
          simp only
          cases rd N T2 m m with
          | error e => rfl
          | ok b =>
            simp only
            cases vdiv a b with
            | error e => rfl
            | ok q =>
              simp only
              exact ih _ _ _ _

theorem compute_expected_length_log_erase (N fuel : Nat) (T : Table) (m : Int) :
    compute_expected_length N fuel T m = eraseLog (compute_expected_length_log N fuel T m) := by
  unfold compute_expected_length compute_expected_length_log
  rw [F_log_erase]
  simp only [bind, Except.bind]
  cases F_log N fuel T m m with
  | error e => rfl
  | ok r1 =>
    obtain ⟨v1, T1, log1⟩ := r1
    simp only [eraseLog]
    cases wr N T1 m m v1 with
    | error e => rfl
    | ok T2 =>
      simp only
      rw [cel_loop_log_erase N fuel m _ _ _ _ (log1 ++ [Event.write m m])]
      cases cel_loop_log N fuel m (m - 1).toNat 1 (some 0, T2, log1 ++ [Event.write m m]) with
      | error e => rfl
      | ok r =>
        obtain ⟨s, U, log⟩ := r
        rfl

theorem main_loop_log_erase (N fuel : Nat) :
    ∀ (n : Nat) (k : Int) (out : List (Int × Val)) (T : Table) (log : List Event),
    main_loop N fuel n k (out, T) = eraseLog (main_loop_log N fuel n k (out, T, log)) := by
  intro n
  induction n with
  | zero =>
    intro k out T log
    rfl
  | succ n ih =>
    intro k out T log
    rw [main_loop, main_loop_log, compute_expected_length_log_erase]
    simp only [bind, Except.bind]
    cases compute_expected_length_log N fuel T k with
    | error e => rfl
    | ok r1 =>
      obtain ⟨v1, T1, log1⟩ := r1
      simp only [eraseLog]
      exact ih _ _ _ _

theorem eraseLog_ok {α : Type} (r : Res (α × Table × List Event)) (x : α) (T : Table)
    (log : List Event) (h : r = .ok (x, T, log)) : eraseLog r = .ok (x, T) := by
  rw [h]
  rfl

theorem eraseLog_eq_ok {α : Type} (r : Res (α × Table × List Event)) (x : α) (T : Table)
    (h : eraseLog r = .ok (x, T)) : ∃ log, r = .ok (x, T, log) := by
  cases r with
  | error e => simp [eraseLog] at h
  | ok p =>
    obtain ⟨y, U, log⟩ := p
    simp only [eraseLog, Except.ok.injEq, Prod.mk.injEq] at h
    obtain ⟨rfl, rfl⟩ := h
    exact ⟨log, rfl⟩

/-! ## Frame, bounds and termination on arbitrary tables -/

theorem Frame_refl (T : Table) (m l : Int) : Frame T T m l := by
  intro a b h
  exact absurd rfl h

theorem Frame_trans {T U V : Table} {m l : Int} (h1 : Frame T U m l) (h2 : Frame U V m l) :
    Frame T V m l := by
  intro a b h
  by_cases hU : U a b = T a b
  · exact h2 a b (by rw [hU]; exact h)
  · exact h1 a b hU

theorem Frame_mono {T U : Table} {m l m2 l2 : Int} (h : Frame T U m l) (hm : m ≤ m2)
    (hl : l ≤ l2) : Frame T U m2 l2 := by
  intro a b hab
  obtain ⟨h1, h2, h3, h4⟩ := h a b hab
  exact ⟨h1, by omega, h3, by omega⟩

theorem Frame_upd (T : Table) (a b m l : Int) (v : Val) (ha : 1 ≤ a) (ham : a < m)
    (hb : 1 ≤ b) (hbl : b < l) : Frame T (upd T a b v) m l := by
  intro x y h
  unfold upd at h
  split at h
  · rename_i hxy
    obtain ⟨rfl, rfl⟩ := hxy
    exact ⟨ha, ham, hb, hbl⟩
  · exact absurd rfl h

theorem InSquare_lookup (N : Nat) (m l : Nat) (hit : Bool) (hm : 1 ≤ m) (hmN : m ≤ N)
    (hl : 1 ≤ l) (hlN : l ≤ N) : InSquare N (Event.lookup m l hit) := by
  simp only [InSquare, Event.row, Event.col]
  omega

theorem InSquare_read (N : Nat) (m l : Nat) (hm : 1 ≤ m) (hmN : m ≤ N)
    (hl : 1 ≤ l) (hlN : l ≤ N) : InSquare N (Event.read m l) := by
  simp only [InSquare, Event.row, Event.col]
  omega

theorem InSquare_write (N : Nat) (m l : Nat) (hm : 1 ≤ m) (hmN : m ≤ N)
    (hl : 1 ≤ l) (hlN : l ≤ N) : InSquare N (Event.write m l) := by
  simp only [InSquare, Event.row, Event.col]
  omega

theorem F_loop_log_frame (N : Nat) (call : Table → Int → Int → Res (Val × Table × List Event))
    (m k : Nat) (P : Prop) (hkN : k ≤ N) (hk : 1 ≤ k) (hm : m ≤ N)
    (hcall : ∀ (T : Table) (i : Nat), 1 ≤ i → i ≤ N →
      (call T i k = .error .outOfFuel ∧ P) ∨ GSpec N T i k (call T i k)) :
    ∀ (n i : Nat) (s : Val) (T : Table) (log : List Event),
      1 ≤ i → i + n = m → (∀ e ∈ log, InSquare N e) →
      (F_loop_log call N m ((k : Int) + 1) n i (s, T, log) = .error .outOfFuel ∧ P) ∨
      ∃ s2 U log2, F_loop_log call N m ((k : Int) + 1) n i (s, T, log) = .ok (s2, U, log2)
        ∧ Frame T U m ((k : Int) + 1) ∧ ∀ e ∈ log2, InSquare N e := by
  intro n
  induction n with
  | zero =>
    intro i s T log _ _ hlog
    right
    exact ⟨s, T, log, rfl, Frame_refl T _ _, hlog⟩
  | succ n ih =>
    intro i s T log hi him hlog
    have hiN : i ≤ N := by omega
    have hsub : (m : Int) - (i : Int) = ((m - i : Nat) : Int) := by omega
    have hcanc : (k : Int) + 1 - 1 = (k : Int) := by omega
    rw [F_loop_log, hcanc, hsub]
    rcases hcall T i hi hiN with ⟨he, hP⟩ | ⟨v1, U1, log1, h1, hF1, hL1⟩
    · left
      rw [he]
      exact ⟨rfl, hP⟩
    · rw [h1]
      simp only [bind, Except.bind]
      rw [wr_ok N U1 i k _ hiN hkN]
      simp only
      rcases hcall (upd U1 i k v1) (m - i) (by omega) (by omega)
        with ⟨he, hP⟩ | ⟨v2, U3, log2, h3, hF3, hL3⟩
      · left
        rw [he]
        exact ⟨rfl, hP⟩
      · rw [h3]
        simp only
        rw [wr_ok N U3 (m - i) k _ (by omega) hkN]
        simp only
        rw [rd_ok N _ i k hiN hkN, rd_ok N _ (m - i) k (by omega) hkN]
        simp only
        have hi1 : ((i : Int) + 1) = ((i + 1 : Nat) : Int) := by push_cast; rfl
        rw [hi1]
        have hlog2 : ∀ e ∈ log ++ log1 ++ [Event.write i k] ++ log2 ++
            [Event.write ((m - i : Nat) : Int) k, Event.read i k,
              Event.read ((m - i : Nat) : Int) k], InSquare N e := by
          intro e he
          simp only [List.mem_append, List.mem_cons, List.mem_singleton, List.not_mem_nil,
            or_false] at he
          rcases he with (((he | he) | he) | he) | he | he | he
          · exact hlog e he
          · exact hL1 e he
          · rw [he]
            exact InSquare_write N i k hi hiN hk hkN
          · exact hL3 e he
          · rw [he]
            exact InSquare_write N (m - i) k (by omega) (by omega) hk hkN
          · rw [he]
            exact InSquare_read N i k hi hiN hk hkN
          · rw [he]
            exact InSquare_read N (m - i) k (by omega) (by omega) hk hkN
        have hFa : Frame T (upd U1 i k v1) m ((k : Int) + 1) :=
          Frame_trans (Frame_mono hF1 (by omega) (by omega))
            (Frame_upd U1 i k m _ v1 (by omega) (by omega) (by omega) (by omega))
        have hFb : Frame (upd U1 i k v1) (upd U3 ((m - i : Nat) : Int) k v2) m ((k : Int) + 1) :=
          Frame_trans (Frame_mono hF3 (by omega) (by omega))
            (Frame_upd U3 _ k m _ v2 (by omega) (by omega) (by omega) (by omega))
        rcases ih (i + 1) _ _ _ (by omega) (by omega) hlog2
          with ⟨he, hP⟩ | ⟨s2, U, log3, h, hF, hL⟩
        · left
          exact ⟨he, hP⟩
        · right
          exact ⟨s2, U, log3, h, Frame_trans (Frame_trans hFa hFb) hF, hL⟩

theorem F_log_frame (N : Nat) : ∀ (fuel : Nat) (T : Table) (m l : Nat),
    1 ≤ m → m ≤ N → 1 ≤ l → l ≤ N →
    (F_log N fuel T m l = .error .outOfFuel ∧ fuel < l) ∨ GSpec N T m l (F_log N fuel T m l) := by
  intro fuel
  induction fuel with
  | zero =>
    intro T m l _ _ hl _
    left
    exact ⟨rfl, by omega⟩
  | succ fuel ih =>
    intro T m l hm hmN hl hlN
    rw [F_log, rd_ok N T m l hmN hlN]
    simp only [bind, Except.bind]
    have hlk : ∀ hit, InSquare N (Event.lookup m l hit) :=
      fun hit => InSquare_lookup N m l hit hm hmN hl hlN
    split
    · right
      refine ⟨_, T, _, rfl, Frame_refl T _ _, ?_⟩
      intro e he
      simp only [List.mem_cons, List.mem_singleton, List.not_mem_nil, or_false] at he
      rcases he with he | he
      · rw [he]
        exact hlk true
      · rw [he]
        exact InSquare_read N m l hm hmN hl hlN
    · have hmiss : ∀ e ∈ [Event.lookup (m : Int) (l : Int) false], InSquare N e := by
        intro e he
        simp only [List.mem_singleton] at he
        rw [he]
        exact hlk false
      split
      · right
        exact ⟨_, T, _, rfl, Frame_refl T _ _, hmiss⟩
      · split
        · right
          exact ⟨_, T, _, rfl, Frame_refl T _ _, hmiss⟩
        · rename_i _ _ h2i
          obtain ⟨k, rfl⟩ : ∃ k, l = k + 1 := ⟨l - 1, by omega⟩
          have hk : 1 ≤ k := by omega
          have hn : ((m : Int) - 1).toNat = m - 1 := by omega
          have hcast : ((k + 1 : Nat) : Int) = (k : Int) + 1 := by push_cast; rfl
          rw [hn]
          rw [hcast] at hmiss ⊢
          have key := F_loop_log_frame N (F_log N fuel) m k (fuel < k) (by omega) hk hmN
            (fun U i hi hiN => ih U i k hi hiN hk (by omega))
            (m - 1) 1 (some 0) T _ (le_refl _) (by omega) hmiss
          rw [Nat.cast_one] at key
          rcases key with ⟨he, hP⟩ | ⟨s2, U, log2, h, hF, hL⟩
          · left
            rw [he]
            exact ⟨rfl, by omega⟩
          · right
            rw [h]
            exact ⟨_, U, log2, rfl, hF, hL⟩

theorem cel_loop_log_frame (N fuel m : Nat) (hm : 1 ≤ m) (hmN : m ≤ N) :
    ∀ (n i : Nat) (s : Val) (T : Table) (log : List Event),
      1 ≤ i → i + n = m → (∀ e ∈ log, InSquare N e) →
      (cel_loop_log N fuel m n i (s, T, log) = .error .outOfFuel ∧ fuel < m) ∨
      cel_loop_log N fuel m n i (s, T, log) = .error .divByZero ∨
      ∃ s2 U log2, cel_loop_log N fuel m n i (s, T, log) = .ok (s2, U, log2)
        ∧ Frame T U ((m : Int) + 1) ((m : Int) + 1) ∧ ∀ e ∈ log2, InSquare N e := by
  intro n
  induction n with
  | zero =>
    intro i s T log _ _ hlog
    right
    right
    exact ⟨s, T, log, rfl, Frame_refl T _ _, hlog⟩
  | succ n ih =>
    intro i s T log hi him hlog
    have hiN : i ≤ N := by omega
    rw [cel_loop_log]
    rcases F_log_frame N fuel T m i hm hmN hi hiN with ⟨he, hP⟩ | ⟨v1, U1, log1, h1, hF1, hL1⟩
    · left
      rw [he]
      exact ⟨rfl, by omega⟩
    · rw [h1]
      simp only [bind, Except.bind]
      rw [wr_ok N U1 m i _ hmN hiN]
      simp only
      rw [rd_ok N _ m i hmN hiN, rd_ok N _ m m hmN hmN]
      simp only
      cases hq : vdiv (upd U1 m i v1 m i) (upd U1 m i v1 m m) with
      | error e =>
        right
        left
        simp only
        unfold vdiv at hq
        split at hq
        · split at hq
          · cases hq
            rfl
          · cases hq
        · cases hq
      | ok q =>
        simp only
        have hi1 : ((i : Int) + 1) = ((i + 1 : Nat) : Int) := by push_cast; rfl
        rw [hi1]
        have hlog2 : ∀ e ∈ log ++ log1 ++
            [Event.write (m : Int) i, Event.read (m : Int) i, Event.read (m : Int) m],
            InSquare N e := by
          intro e he
          simp only [List.mem_append, List.mem_cons, List.mem_singleton, List.not_mem_nil,
            or_false] at he
          rcases he with (he | he) | he | he | he
          · exact hlog e he
          · exact hL1 e he
          · rw [he]
            exact InSquare_write N m i hm hmN hi hiN
          · rw [he]
            exact InSquare_read N m i hm hmN hi hiN
          · rw [he]
            exact InSquare_read N m m hm hmN hm hmN
        have hFa : Frame T (upd U1 m i v1) ((m : Int) + 1) ((m : Int) + 1) :=
          Frame_trans (Frame_mono hF1 (by omega) (by omega))
            (Frame_upd U1 m i _ _ v1 (by omega) (by omega) (by omega) (by omega))
        rcases ih (i + 1) _ _ _ (by omega) (by omega) hlog2
          with ⟨he, hP⟩ | he | ⟨s2, U, log3, h, hF, hL⟩
        · left
          exact ⟨he, hP⟩
        · right
          left
          exact he
        · right
          right
          exact ⟨s2, U, log3, h, Frame_trans hFa hF, hL⟩

theorem compute_expected_length_log_frame (N fuel : Nat) (T : Table) (m : Nat)
    (hm : 1 ≤ m) (hmN : m ≤ N) :
    (compute_expected_length_log N fuel T m = .error .outOfFuel ∧ fuel < m) ∨
    compute_expected_length_log N fuel T m = .error .divByZero ∨
    ∃ v U log, compute_expected_length_log N fuel T m = .ok (v, U, log)
      ∧ Frame T U ((m : Int) + 1) ((m : Int) + 1) ∧ ∀ e ∈ log, InSquare N e := by
  unfold compute_expected_length_log
  rcases F_log_frame N fuel T m m hm hmN hm hmN with ⟨he, hP⟩ | ⟨v1, U1, log1, h1, hF1, hL1⟩
  · left
    rw [he]
    exact ⟨rfl, hP⟩
  · rw [h1]
    simp only [bind, Except.bind]
    rw [wr_ok N U1 m m _ hmN hmN]
    simp only
    have hn : ((m : Int) - 1).toNat = m - 1 := by omega
    rw [hn]
    have hlog2 : ∀ e ∈ log1 ++ [Event.write (m : Int) m], InSquare N e := by
      intro e he
      simp only [List.mem_append, List.mem_singleton] at he
      rcases he with he | he
      · exact hL1 e he
      · rw [he]
        exact InSquare_write N m m hm hmN hm hmN
    have hFa : Frame T (upd U1 m m v1) ((m : Int) + 1) ((m : Int) + 1) :=
      Frame_trans (Frame_mono hF1 (by omega) (by omega))
        (Frame_upd U1 m m _ _ v1 (by omega) (by omega) (by omega) (by omega))
    have key := cel_loop_log_frame N fuel m hm hmN (m - 1) 1 (some 0) (upd U1 m m v1) _
      (le_refl _) (by omega) hlog2
    rw [Nat.cast_one] at key
    rcases key with ⟨he, hP⟩ | he | ⟨s2, U, log3, h, hF, hL⟩
    · left
      rw [he]
      exact ⟨rfl, hP⟩
    · right
      left
      rw [he]
    · right
      right
      rw [h]
      exact ⟨_, U, log3, rfl, Frame_trans hFa hF, hL⟩

/-- On any table, with arguments in `1..N`, `F` either runs out of fuel (only when the
fuel is below the length) or returns, changing only cells below and left of `(m, l)`. -/
theorem F_frame (N fuel : Nat) (T : Table) (m l : Nat) (hm : 1 ≤ m) (hmN : m ≤ N)
    (hl : 1 ≤ l) (hlN : l ≤ N) :
    (F N fuel T m l = .error .outOfFuel ∧ fuel < l) ∨
    ∃ v U, F N fuel T m l = .ok (v, U) ∧ Frame T U m l := by
  rw [F_log_erase]
  rcases F_log_frame N fuel T m l hm hmN hl hlN with ⟨he, hP⟩ | ⟨v, U, log, h, hF, _⟩
  · left
    rw [he]
    exact ⟨rfl, hP⟩
  · right
    exact ⟨v, U, eraseLog_ok _ _ _ _ h, hF⟩

/-! ## Cache misses on sound tables -/

theorem misses_append (a b : List Event) : misses (a ++ b) = misses a ++ misses b := by
  induction a with
  | nil => rfl
  | cons e es ih =>
    cases e with
    | lookup m l hit =>
      cases hit with
      | false => simp [misses, ih]
      | true => simp [misses, ih]
    | read m l => simp [misses, ih]
    | write m l => simp [misses, ih]

theorem misses_nil : misses [] = [] := rfl

theorem misses_write (a b : Int) (es : List Event) :
    misses (Event.write a b :: es) = misses es := rfl

theorem misses_read (a b : Int) (es : List Event) :
    misses (Event.read a b :: es) = misses es := rfl

theorem misses_hit (a b : Int) (es : List Event) :
    misses (Event.lookup a b true :: es) = misses es := rfl

theorem misses_miss (a b : Int) (es : List Event) :
    misses (Event.lookup a b false :: es) = (a, b) :: misses es := rfl

theorem mem_misses (log : List Event) (p : Int × Int) (h : p ∈ misses log) :
    Event.lookup p.1 p.2 false ∈ log := by
  induction log with
  | nil => simp [misses] at h
  | cons e es ih =>
    cases e with
    | lookup m l hit =>
      cases hit with
      | false =>
        simp only [misses, List.mem_cons] at h
        rcases h with h | h
        · rw [h]
          exact List.mem_cons_self _ _
        · exact List.mem_cons_of_mem _ (ih h)
      | true =>
        simp only [misses] at h
        exact List.mem_cons_of_mem _ (ih h)
    | read m l =>
      simp only [misses] at h
      exact List.mem_cons_of_mem _ (ih h)
    | write m l =>
      simp only [misses] at h
      exact List.mem_cons_of_mem _ (ih h)

theorem unknown_of_Ext {T U : Table} (h : Ext T U) (a b : Int) (hU : U a b = none) :
    T a b = none := by
  cases hT : T a b with
  | none => rfl
  | some q =>
    rw [h a b q hT] at hU
    cases hU

theorem known_of_Ext {T U : Table} (h : Ext T U) (a b : Int) (hT : T a b ≠ none) :
    U a b ≠ none := by
  intro hU
  exact hT (unknown_of_Ext h a b hU)

theorem RunMiss_nil (T U : Table) : RunMiss T U [] :=
  ⟨List.nodup_nil, fun p hp => by simp at hp⟩

/-- Misses of a call, stored by the caller, followed by the misses of the rest of a run. -/
theorem RunMiss_call {T U1 T2 U : Table} {a b : Int} {f : ℚ} {ms1 ms2 : List (Int × Int)}
    (h1 : MissOK T U1 a b ms1) (hT2 : T2 = upd U1 a b (some f)) (hE : Ext T T2)
    (hE2 : Ext T2 U) (h2 : RunMiss T2 U ms2) : RunMiss T U (ms1 ++ ms2) := by
  have hk : ∀ p ∈ ms1, T2 p.1 p.2 ≠ none := by
    intro p hp
    rw [hT2]
    unfold upd
    split
    · simp
    · rename_i hne
      rcases (h1.2 p hp).2 with hpe | ⟨_, hU1⟩
      · exact absurd ⟨congrArg Prod.fst hpe, congrArg Prod.snd hpe⟩ hne
      · exact hU1
  refine ⟨?_, ?_⟩
  · rw [List.nodup_append]
    refine ⟨h1.1, h2.1, ?_⟩
    intro p hp1 hp2
    exact hk p hp1 (h2.2 p hp2).1
  · intro p hp
    rw [List.mem_append] at hp
    rcases hp with hp | hp
    · exact ⟨(h1.2 p hp).1, known_of_Ext hE2 _ _ (hk p hp)⟩
    · exact ⟨unknown_of_Ext hE _ _ (h2.2 p hp).1, (h2.2 p hp).2⟩

theorem MissOK_level {T U : Table} {a b : Int} {ms : List (Int × Int)}
    (h : MissOK T U a b ms) : ∀ p ∈ ms, p.2 ≤ b := by
  intro p hp
  rcases (h.2 p hp).2 with hpe | ⟨hlt, _⟩
  · rw [hpe]
  · omega

theorem F_loop_log_miss (N : Nat) (call : Table → Int → Int → Res (Val × Table × List Event))
    (m k : Nat) (P : Prop) (hkN : k ≤ N) (hk : 1 ≤ k) (hm : m ≤ N)
    (hcall : ∀ (T : Table) (i : Nat), Sound T → 1 ≤ i → i ≤ N →
      (call T i k = .error .outOfFuel ∧ P) ∨ LSpec T i k (call T i k)) :
    ∀ (n i : Nat) (s : ℚ) (T : Table) (log : List Event), Sound T → 1 ≤ i → i + n = m →
      (F_loop_log call N m ((k : Int) + 1) n i (some s, T, log) = .error .outOfFuel ∧ P) ∨
      ∃ U ext, F_loop_log call N m ((k : Int) + 1) n i (some s, T, log)
          = .ok (some (s + ∑ j ∈ Finset.Ico i m, Fref j k * Fref (m - j) k), U, log ++ ext)
        ∧ Sound U ∧ Ext T U ∧ RunMiss T U (misses ext) ∧ (∀ p ∈ misses ext, p.2 ≤ (k : Int))
        ∧ (∀ j : Nat, i ≤ j → j < m → U j k = some (Fref j k)) := by
  intro n
  induction n with
  | zero =>
    intro i s T log hT hi him
    right
    have : i = m := by omega
    subst this
    refine ⟨T, [], by simp [F_loop_log], hT, Ext_refl T, RunMiss_nil T T, ?_, ?_⟩
    · intro p hp
      simp [misses] at hp
    · intro j h1 h2
      omega
  | succ n ih =>
    intro i s T log hT hi him
    have hiN : i ≤ N := by omega
    have hsub : (m : Int) - (i : Int) = ((m - i : Nat) : Int) := by omega
    have hcanc : (k : Int) + 1 - 1 = (k : Int) := by omega
    rw [F_loop_log, hcanc, hsub]
    rcases hcall T i hT hi hiN with ⟨he, hP⟩ | ⟨U1, log1, h1, hU1, hE1, hM1, _⟩
    · left
      rw [he]
      exact ⟨rfl, hP⟩
    · rw [h1]
      simp only [bind, Except.bind]
      rw [wr_ok N U1 i k _ hiN hkN]
      simp only
      have hS2 : Sound (upd U1 i k (some (Fref i k))) := Sound_upd U1 i k hU1 hi hk
      have hE2 : Ext U1 (upd U1 i k (some (Fref i k))) := Ext_upd U1 i k hU1
      rcases hcall _ (m - i) hS2 (by omega) (by omega)
        with ⟨he, hP⟩ | ⟨U3, log2, h3, hU3, hE3, hM3, _⟩
      · left
        rw [he]
        exact ⟨rfl, hP⟩
      · rw [h3]
        simp only
        rw [wr_ok N U3 (m - i) k _ (by omega) hkN]
        simp only
        have hS4 : Sound (upd U3 (m - i : Nat) k (some (Fref (m - i) k))) :=
          Sound_upd U3 (m - i) k hU3 (by omega) hk
        have hE4 : Ext U3 (upd U3 (m - i : Nat) k (some (Fref (m - i) k))) :=
          Ext_upd U3 (m - i) k hU3
        rw [rd_ok N _ i k hiN hkN, rd_ok N _ (m - i) k (by omega) hkN]
        simp only
        have ha : upd U3 (m - i : Nat) k (some (Fref (m - i) k)) i k = some (Fref i k) :=
          hE4 _ _ _ (hE3 _ _ _ (upd_same U1 i k _))
        rw [ha, upd_same]
        have hi1 : ((i : Int) + 1) = ((i + 1 : Nat) : Int) := by push_cast; rfl
        simp only [vmul, vadd]
        rw [hi1]
        rcases ih (i + 1) (s + Fref i k * Fref (m - i) k) _
            (log ++ log1 ++ [Event.write i k] ++ log2 ++
              [Event.write ((m - i : Nat) : Int) k, Event.read i k,
                Event.read ((m - i : Nat) : Int) k]) hS4 (by omega) (by omega)
          with ⟨he, hP⟩ | ⟨U, ext, h, hU, hE, hR, hlev, hst⟩
        · left
          exact ⟨he, hP⟩
        · right
          have hR2 : RunMiss (upd U1 i k (some (Fref i k))) U (misses log2 ++ misses ext) :=
            RunMiss_call hM3 rfl (Ext_trans hE3 hE4) hE hR
          have hR1 : RunMiss T U (misses log1 ++ (misses log2 ++ misses ext)) :=
            RunMiss_call hM1 rfl (Ext_trans hE1 hE2) (Ext_trans (Ext_trans hE3 hE4) hE) hR2
          refine ⟨U, log1 ++ [Event.write i k] ++ log2 ++
              [Event.write ((m - i : Nat) : Int) k, Event.read i k,
                Event.read ((m - i : Nat) : Int) k] ++ ext, ?_, hU,
            Ext_trans (Ext_trans (Ext_trans hE1 hE2) (Ext_trans hE3 hE4)) hE, ?_, ?_, ?_⟩
          · rw [h]
            have hsum : ∑ j ∈ Finset.Ico i m, Fref j k * Fref (m - j) k
                = Fref i k * Fref (m - i) k
                  + ∑ j ∈ Finset.Ico (i + 1) m, Fref j k * Fref (m - j) k := by
              rw [Finset.sum_eq_sum_Ico_succ_bot (by omega)]
            rw [hsum, add_assoc]
            simp only [List.append_assoc]
          · simp only [misses_append, misses_write, misses_read, misses_nil, List.append_nil,
              List.append_assoc]
            exact hR1
          · intro p hp
            simp only [misses_append, misses_write, misses_read, misses_nil, List.append_nil,
              List.mem_append] at hp
            rcases hp with (hp | hp) | hp
            · exact MissOK_level hM1 p hp
            · exact MissOK_level hM3 p hp
            · exact hlev p hp
          · intro j hj hjm
            by_cases hji : j = i
            · subst hji
              exact hE _ _ _ ha
            · exact hst j (by omega) hjm

theorem F_log_miss (N : Nat) : ∀ (fuel : Nat) (T : Table) (m l : Nat),
    Sound T → 1 ≤ m → m ≤ N → 1 ≤ l → l ≤ N →
    (F_log N fuel T m l = .error .outOfFuel ∧ fuel < l) ∨ LSpec T m l (F_log N fuel T m l) := by
  intro fuel
  induction fuel with
  | zero =>
    intro T m l _ _ _ hl _
    left
    exact ⟨rfl, by omega⟩
  | succ fuel ih =>
    intro T m l hT hm hmN hl hlN
    rw [F_log, rd_ok N T m l hmN hlN]
    simp only [bind, Except.bind]
    have hsingle : ∀ U : Table, T m l = none →
        MissOK T U m l (misses [Event.lookup (m : Int) (l : Int) false]) := by
      intro U hc
      refine ⟨by simp [misses_miss, misses_nil], ?_⟩
      intro p hp
      simp only [misses_miss, misses_nil, List.mem_singleton] at hp
      rw [hp]
      exact ⟨hc, Or.inl rfl⟩
    cases hc : T m l with
    | some q =>
      right
      have hq := (hT _ _ q hc).2.2
      simp only [Int.toNat_ofNat] at hq
      subst hq
      refine ⟨T, [Event.lookup (m : Int) (l : Int) true, Event.read (m : Int) (l : Int)], by simp,
        hT, Ext_refl T, ?_, ?_⟩
      · refine ⟨by simp [misses_hit, misses_read, misses_nil], ?_⟩
        intro p hp
        simp [misses_hit, misses_read, misses_nil] at hp
      · intro h
        rw [hc] at h
        cases h
    | none =>
      simp only [Option.isSome_none, Bool.false_eq_true, if_false]
      by_cases h1 : m = 1
      · subst h1
        right
        refine ⟨T, [Event.lookup ((1 : Nat) : Int) (l : Int) false], by simp [Fref_one], hT,
          Ext_refl T, hsingle T hc, ?_⟩
        intro _ _ j hj hj1
        omega
      · have h1i : ¬ ((m : Int) = 1) := by omega
        rw [if_neg h1i]
        by_cases h2 : l = 1
        · subst h2
          right
          refine ⟨T, [Event.lookup (m : Int) ((1 : Nat) : Int) false],
            by simp [Fref_len_one m h1], hT, Ext_refl T, hsingle T hc, ?_⟩
          intro _ h2l
          omega
        · have h2i : ¬ ((l : Int) = 1) := by omega
          rw [if_neg h2i]
          obtain ⟨k, rfl⟩ : ∃ k, l = k + 1 := ⟨l - 1, by omega⟩
          have hk : 1 ≤ k := by omega
          have hn : ((m : Int) - 1).toNat = m - 1 := by omega
          have hcast : ((k + 1 : Nat) : Int) = (k : Int) + 1 := by push_cast; rfl
          rw [hn]
          rw [hcast] at hc ⊢
          have key := F_loop_log_miss N (F_log N fuel) m k (fuel < k) (by omega) hk hmN
            (fun U i hU hi hiN => ih U i k hU hi hiN hk (by omega))
            (m - 1) 1 0 T [Event.lookup (m : Int) ((k : Int) + 1) false] hT (le_refl _)
            (by omega)
          rw [Nat.cast_one] at key
          rcases key with ⟨he, hP⟩ | ⟨U, ext, h, hU, hE, hR, hlev, hst⟩
          · left
            rw [he]
            exact ⟨rfl, by omega⟩
          · right
            rw [h]
            refine ⟨U, [Event.lookup (m : Int) ((k : Int) + 1) false] ++ ext, ?_, hU, hE, ?_, ?_⟩
            · simp only [vmul]
              rw [Fref_rec m k h1 hk, zero_add]
            · simp only [List.singleton_append, misses_miss]
              refine ⟨?_, ?_⟩
              · rw [List.nodup_cons]
                refine ⟨?_, hR.1⟩
                intro hmem
                have := hlev _ hmem
                simp only at this
                omega
              · intro p hp
                rw [List.mem_cons] at hp
                rcases hp with hp | hp
                · rw [hp]
                  exact ⟨hc, Or.inl rfl⟩
                · refine ⟨(hR.2 p hp).1, Or.inr ⟨?_, (hR.2 p hp).2⟩⟩
                  have := hlev p hp
                  omega
            · intro _ _ j hj hjm
              have hc2 : ((k + 1 : Nat) : Int) - 1 = (k : Int) := by omega
              have hk2 : k + 1 - 1 = k := by omega
              rw [hc2, hk2]
              exact hst j hj hjm

theorem RunMiss_trans {T U V : Table} {ms1 ms2 : List (Int × Int)} (h1 : RunMiss T U ms1)
    (h2 : RunMiss U V ms2) (hE1 : Ext T U) (hE2 : Ext U V) : RunMiss T V (ms1 ++ ms2) := by
  refine ⟨?_, ?_⟩
  · rw [List.nodup_append]
    refine ⟨h1.1, h2.1, ?_⟩
    intro p hp1 hp2
    exact (h1.2 p hp1).2 (h2.2 p hp2).1
  · intro p hp
    rw [List.mem_append] at hp
    rcases hp with hp | hp
    · exact ⟨(h1.2 p hp).1, known_of_Ext hE2 _ _ (h1.2 p hp).2⟩
    · exact ⟨unknown_of_Ext hE1 _ _ (h2.2 p hp).1, (h2.2 p hp).2⟩

theorem cel_loop_log_miss (N fuel m : Nat) (hm : 1 ≤ m) (hmN : m ≤ N) :
    ∀ (n i : Nat) (s : ℚ) (T : Table) (log : List Event),
      Sound T → T m m = some (Fref m m) → 1 ≤ i → i + n = m →
      (cel_loop_log N fuel m n i (some s, T, log) = .error .outOfFuel ∧ fuel < m) ∨
      ∃ U ext, cel_loop_log N fuel m n i (some s, T, log)
          = .ok (some (s + ∑ j ∈ Finset.Ico i m, Fref m j / Fref m m), U, log ++ ext)
        ∧ Sound U ∧ Ext T U ∧ RunMiss T U (misses ext) := by
  intro n
  induction n with
  | zero =>
    intro i s T log hT _ hi him
    right
    have : i = m := by omega
    subst this
    exact ⟨T, [], by simp [cel_loop_log], hT, Ext_refl T, RunMiss_nil T T⟩
  | succ n ih =>
    intro i s T log hT hd hi him
    have hiN : i ≤ N := by omega
    rw [cel_loop_log]
    rcases F_log_miss N fuel T m i hT hm hmN hi hiN with ⟨he, hP⟩ | ⟨U1, log1, h1, hU1, hE1, hM1, _⟩
    · left
      rw [he]
      exact ⟨rfl, by omega⟩
    · rw [h1]
      simp only [bind, Except.bind]
      rw [wr_ok N U1 m i _ hmN hiN]
      simp only
      have hS2 : Sound (upd U1 m i (some (Fref m i))) := Sound_upd U1 m i hU1 hm hi
      have hE2 : Ext U1 (upd U1 m i (some (Fref m i))) := Ext_upd U1 m i hU1
      rw [rd_ok N _ m i hmN hiN, rd_ok N _ m m hmN hmN]
      simp only
      have hd2 : upd U1 m i (some (Fref m i)) m m = some (Fref m m) :=
        hE2 _ _ _ (hE1 _ _ _ hd)
      rw [hd2, upd_same]
      have hne : Fref m m ≠ 0 := ne_of_gt (Fref_pos m m hm (le_refl _))
      have hi1 : ((i : Int) + 1) = ((i + 1 : Nat) : Int) := by push_cast; rfl
      simp only [vdiv, if_neg hne, vadd]
      rw [hi1]
      rcases ih (i + 1) (s + Fref m i / Fref m m) _
          (log ++ log1 ++ [Event.write (m : Int) i, Event.read (m : Int) i,
            Event.read (m : Int) m]) hS2 hd2 (by omega) (by omega)
        with ⟨he, hP⟩ | ⟨U, ext, h, hU, hE, hR⟩
      · left
        exact ⟨he, hP⟩
      · right
        refine ⟨U, log1 ++ [Event.write (m : Int) i, Event.read (m : Int) i,
            Event.read (m : Int) m] ++ ext, ?_, hU, Ext_trans (Ext_trans hE1 hE2) hE, ?_⟩
        · rw [h]
          have hsum : ∑ j ∈ Finset.Ico i m, Fref m j / Fref m m
              = Fref m i / Fref m m + ∑ j ∈ Finset.Ico (i + 1) m, Fref m j / Fref m m := by
            rw [Finset.sum_eq_sum_Ico_succ_bot (by omega)]
          rw [hsum, add_assoc]
          simp only [List.append_assoc]
        · simp only [misses_append, misses_write, misses_read, misses_nil, List.append_nil]
          exact RunMiss_call hM1 rfl (Ext_trans hE1 hE2) hE hR

theorem compute_expected_length_log_miss (N fuel : Nat) (T : Table) (m : Nat) (hT : Sound T)
    (hm : 1 ≤ m) (hmN : m ≤ N) :
    (compute_expected_length_log N fuel T m = .error .outOfFuel ∧ fuel < m) ∨
    ∃ U log, compute_expected_length_log N fuel T m = .ok (some (Eref m), U, log)
      ∧ Sound U ∧ Ext T U ∧ RunMiss T U (misses log) ∧ (∀ e ∈ log, InSquare N e)
      ∧ Frame T U ((m : Int) + 1) ((m : Int) + 1) := by
  have hI := compute_expected_length_log_frame N fuel T m hm hmN
  unfold compute_expected_length_log at hI ⊢
  rcases F_log_miss N fuel T m m hT hm hmN hm hmN with ⟨he, hP⟩ | ⟨U1, log1, h1, hU1, hE1, hM1, _⟩
  · left
    rw [he]
    exact ⟨rfl, hP⟩
  · rw [h1] at hI ⊢
    simp only [bind, Except.bind] at hI ⊢
    rw [wr_ok N U1 m m _ hmN hmN] at hI ⊢
    simp only at hI ⊢
    have hS2 : Sound (upd U1 m m (some (Fref m m))) := Sound_upd U1 m m hU1 hm hm
    have hE2 : Ext U1 (upd U1 m m (some (Fref m m))) := Ext_upd U1 m m hU1
    have hn : ((m : Int) - 1).toNat = m - 1 := by omega
    rw [hn] at hI ⊢
    have key := cel_loop_log_miss N fuel m hm hmN (m - 1) 1 0 _
      (log1 ++ [Event.write (m : Int) m]) hS2 (upd_same _ _ _ _) (le_refl _) (by omega)
    rw [Nat.cast_one] at key
    rcases key with ⟨he, hP⟩ | ⟨U, ext, h, hU, hE, hR⟩
    · left
      rw [he]
      exact ⟨rfl, hP⟩
    · right
      rw [h] at hI ⊢
      simp only at hI ⊢
      rcases hI with ⟨hbad, _⟩ | hbad | ⟨v, V, logV, hV, hFr, hSq⟩
      · cases hbad
      · cases hbad
      · simp only [Except.ok.injEq, Prod.mk.injEq] at hV
        obtain ⟨_, rfl, rfl⟩ := hV
        refine ⟨U, _, ?_, hU, Ext_trans (Ext_trans hE1 hE2) hE, ?_, hSq, hFr⟩
        · simp [vsub, Eref]
        · simp only [misses_append, misses_write, misses_nil, List.append_nil]
          exact RunMiss_call hM1 rfl (Ext_trans hE1 hE2) hE hR

theorem main_loop_log_miss (N fuel : Nat) (hf : N ≤ fuel) :
    ∀ (n k : Nat) (out : List (Int × Val)) (T : Table) (log : List Event),
      Sound T → 1 ≤ k → k + n ≤ N + 1 →
      ∃ U ext, main_loop_log N fuel n k (out, T, log) = .ok (out ++ linesFrom k n, U, log ++ ext)
        ∧ Sound U ∧ Ext T U ∧ RunMiss T U (misses ext) ∧ (∀ e ∈ ext, InSquare N e)
        ∧ Frame T U ((k + n : Nat) : Int) ((k + n : Nat) : Int) := by
  intro n
  induction n with
  | zero =>
    intro k out T log hT _ _
    refine ⟨T, [], by simp [main_loop_log, linesFrom], hT, Ext_refl T, RunMiss_nil T T, ?_,
      Frame_refl T _ _⟩
    intro e he
    simp at he
  | succ n ih =>
    intro k out T log hT hk hkn
    rw [main_loop_log]
    rcases compute_expected_length_log_miss N fuel T k hT hk (by omega)
      with ⟨_, hlt⟩ | ⟨U1, log1, h1, hU1, hE1, hR1, hSq1, hFr1⟩
    · omega
    · rw [h1]
      simp only [bind, Except.bind]
      have hk1 : ((k : Int) + 1) = ((k + 1 : Nat) : Int) := by push_cast; rfl
      rw [hk1]
      obtain ⟨U, ext, h, hU, hE, hR, hSq, hFr⟩ :=
        ih (k + 1) (out ++ [((k : Int), some (Eref k))]) U1 (log ++ log1) hU1 (by omega)
          (by omega)
      refine ⟨U, log1 ++ ext, ?_, hU, Ext_trans hE1 hE, ?_, ?_, ?_⟩
      · rw [h]
        simp [linesFrom, List.range'_succ]
      · rw [misses_append]
        exact RunMiss_trans hR1 hR hE1 hE
      · intro e he
        rw [List.mem_append] at he
        rcases he with he | he
        · exact hSq1 e he
        · exact hSq e he
      · have hkk : k + 1 + n = k + (n + 1) := by omega
        rw [hkk] at hFr
        exact Frame_trans (Frame_mono hFr1 (by omega) (by omega)) hFr

/-! ## Length distribution -/

theorem filter_networkLength_le (m l : Nat) (hl : 1 ≤ l) :
    ((networks m).filter fun t => networkLength t ≤ l) = treesHeightLe (m - 1) (l - 1) := by
  ext t
  simp only [networks, treesHeightLe, Finset.mem_filter, networkLength_eq]
  constructor
  · rintro ⟨h1, h2⟩
    exact ⟨h1, by omega⟩
  · rintro ⟨h1, h2⟩
    exact ⟨h1, by omega⟩

theorem catalan_pos_rat (n : Nat) : (0 : ℚ) < catalan n := by
  have h1 := Fref_pos (n + 1) (n + 1) (by omega) (le_refl _)
  have hp : (0 : ℚ) < 2 ^ (2 * n + 1) := by positivity
  rw [← Fref_diag n]
  exact mul_pos h1 hp

theorem Fref_ratio (m l : Nat) (hm : 1 ≤ m) (hl : 1 ≤ l) :
    Fref m l / Fref m m = lengthCumProb m l := by
  obtain ⟨n, rfl⟩ : ∃ n, m = n + 1 := ⟨m - 1, by omega⟩
  obtain ⟨h, rfl⟩ : ∃ h, l = h + 1 := ⟨l - 1, by omega⟩
  unfold lengthCumProb
  rw [filter_networkLength_le (n + 1) (h + 1) (by omega), card_networks]
  have hn : n + 1 - 1 = n := by omega
  have hh : h + 1 - 1 = h := by omega
  rw [hn, hh, ← Fref_counts h n, ← Fref_diag n]
  have hp : (2 : ℚ) ^ (2 * n + 1) ≠ 0 := by positivity
  rw [mul_div_mul_right _ _ hp]

theorem lengthProb_one_one : lengthProb 1 1 = 1 := by
  simp [lengthProb, networks, networkLength, Finset.filter_singleton]

theorem F_loop_congr (call1 call2 : Table → Int → Int → Res (Val × Table)) (N : Nat)
    (m l : Int)
    (h : ∀ (U : Table) (j : Int), 1 ≤ j → j ≤ m - 1 → call1 U j (l - 1) = call2 U j (l - 1)) :
    ∀ (n : Nat) (i : Int) (st : Val × Table), 1 ≤ i → i + n = m →
      F_loop call1 N m l n i st = F_loop call2 N m l n i st := by
  intro n
  induction n with
  | zero =>
    intro i st _ _
    rfl
  | succ n ih =>
    intro i st hi him
    obtain ⟨s, T⟩ := st
    have h1 : ∀ U, call1 U i (l - 1) = call2 U i (l - 1) :=
      fun U => h U i hi (by push_cast at him; omega)
    have h2 : ∀ U, call1 U (m - i) (l - 1) = call2 U (m - i) (l - 1) :=
      fun U => h U (m - i) (by push_cast at him; omega) (by omega)
    have h3 : ∀ st2, F_loop call1 N m l n (i + 1) st2 = F_loop call2 N m l n (i + 1) st2 :=
      fun st2 => ih (i + 1) st2 (by omega) (by push_cast at him; omega)
    rw [F_loop, F_loop]
    simp only [h1, h2, h3]

theorem F_not_outOfFuel (N fuel : Nat) (T : Table) (m l : Int) (hm : 1 ≤ m) (hl : 1 ≤ l)
    (hf : l ≤ fuel) : F N fuel T m l ≠ .error .outOfFuel := by
  by_cases hin : m ≤ N ∧ l ≤ N
  · obtain ⟨m, rfl⟩ := Int.eq_ofNat_of_zero_le (by omega : 0 ≤ m)
    obtain ⟨l, rfl⟩ := Int.eq_ofNat_of_zero_le (by omega : 0 ≤ l)
    rcases F_frame N fuel T m l (by omega) (by omega) (by omega) (by omega)
      with ⟨_, hlt⟩ | ⟨v, U, h, _⟩
    · omega
    · rw [h]
      intro hbad
      cases hbad
  · obtain ⟨f, rfl⟩ : ∃ f, fuel = f + 1 := ⟨fuel - 1, by omega⟩
    have hr : rd N T m l = .error .outOfBounds := by
      unfold rd
      rw [if_neg]
      unfold inRange
      omega
    rw [F, hr]
    intro hbad
    cases hbad

theorem length_le_of_nodup_of_square (N : Nat) (ms : List (Int × Int)) (hnd : ms.Nodup)
    (hr : ∀ p ∈ ms, 1 ≤ p.1 ∧ p.1 ≤ (N : Int) ∧ 1 ≤ p.2 ∧ p.2 ≤ (N : Int)) :
    ms.length ≤ N * N := by
  rw [← List.toFinset_card_of_nodup hnd]
  have hsub : ms.toFinset ⊆ Finset.Icc (1 : Int) N ×ˢ Finset.Icc (1 : Int) N := by
    intro p hp
    rw [List.mem_toFinset] at hp
    obtain ⟨h1, h2, h3, h4⟩ := hr p hp
    rw [Finset.mem_product, Finset.mem_Icc, Finset.mem_Icc]
    exact ⟨⟨h1, h2⟩, ⟨h3, h4⟩⟩
  have hcard : (Finset.Icc (1 : Int) N ×ˢ Finset.Icc (1 : Int) N).card = N * N := by
    rw [Finset.card_product, Int.card_Icc]
    simp
  rw [← hcard]
  exact Finset.card_le_card hsub

theorem Frame_allUnknown {U : Table} {m l : Int} (h : Frame allUnknown U m l) (a b : Int)
    (q : ℚ) (hU : U a b = some q) : 1 ≤ a ∧ a < m ∧ 1 ≤ b ∧ b < l := by
  apply h a b
  rw [hU]
  simp [allUnknown]

/-- The full run with its log: outputs, final table and log, with the properties of the
misses. -/
theorem main_loop_log_run (N fuel M : Nat) (hM : M ≤ N) (hf : N ≤ fuel) :
    ∃ U log, main_loop_log N fuel M 1 ([], allUnknown, []) = .ok (linesFrom 1 M, U, log)
      ∧ main_loop N fuel M 1 ([], allUnknown) = .ok (linesFrom 1 M, U)
      ∧ Sound U ∧ RunMiss allUnknown U (misses log) ∧ (∀ e ∈ log, InSquare N e)
      ∧ Frame allUnknown U ((M : Int) + 1) ((M : Int) + 1) := by
  obtain ⟨U, ext, h, hU, _, hR, hSq, hFr⟩ :=
    main_loop_log_miss N fuel hf M 1 [] allUnknown [] Sound_allUnknown (le_refl _) (by omega)
  rw [Nat.cast_one] at h
  simp only [List.nil_append] at h
  refine ⟨U, ext, h, ?_, hU, hR, hSq, ?_⟩
  · rw [main_loop_log_erase N fuel M 1 [] allUnknown [], h]
    rfl
  · have hc : ((1 + M : Nat) : Int) = (M : Int) + 1 := by push_cast; ring
    rw [hc] at hFr
    exact hFr

/-! ## The claims, continued -/

/-- Claim C11, amended. In exact rational arithmetic in place of double: on every
reachable table, for `1 ≤ l ≤ m ≤ N`, the value `F(m, l)` divided by the value `F(m, m)`
is the probability that a network of magnitude `m` has length at most `l`: the fraction of
the binary plane trees with `m` leaves whose longest outlet-to-source path has at most `l`
links. -/
theorem C11_length_cumulative (N fuel : Nat) (T : Table) (m l : Nat) (hT : Reachable N T)
    (hl : 1 ≤ l) (hlm : l ≤ m) (hmN : m ≤ N) (hf : m ≤ fuel) :
    ∃ q d U V, F N fuel T m l = .ok (some q, U) ∧ F N fuel T m m = .ok (some d, V) ∧
      0 < d ∧ q / d = lengthCumProb m l := by
  obtain ⟨U, hU, _, _⟩ := F_total N fuel T m l hT.sound (by omega) hmN hl (by omega) (by omega)
  obtain ⟨V, hV, _, _⟩ := F_total N fuel T m m hT.sound (by omega) hmN (by omega) hmN hf
  exact ⟨Fref m l, Fref m m, U, V, hU, hV, Fref_pos m m (by omega) (le_refl _),
    Fref_ratio m l (by omega) hl⟩

/-- Witness of the amended C11 on the table left by `F(2, 2)`, for `N = 2`, `m = 2`,
`l = 1`. -/
theorem C11_length_cumulative_witness :
    ∃ q d U V, F 2 2 warm ((2 : Nat) : Int) ((1 : Nat) : Int) = .ok (some q, U) ∧
      F 2 2 warm ((2 : Nat) : Int) ((2 : Nat) : Int) = .ok (some d, V) ∧
      0 < d ∧ q / d = lengthCumProb 2 1 :=
  C11_length_cumulative 2 2 warm 2 1 warm_reachable (by decide) (by decide) (by decide)
    (by decide)

/-- Counterexample to C12: on the all-unknown table `compute_expected_length(1)` does not
return `0`. -/
theorem C12_counterexample :
    ¬ ∃ U, compute_expected_length 1 1 allUnknown 1 = .ok (some 0, U) := by
  rintro ⟨U, hU⟩
  obtain ⟨V, hV, _, _⟩ :=
    compute_expected_length_total 1 1 allUnknown 1 Sound_allUnknown (le_refl _) (le_refl _)
      (le_refl _)
  rw [Nat.cast_one, hU, Eref_one] at hV
  simp only [Except.ok.injEq, Prod.mk.injEq, Option.some.injEq] at hV
  norm_num at hV

/-- Claim C12, amended. Called for magnitude `1` on the all-unknown table,
`compute_expected_length` returns `1`. -/
theorem C12_expected_length_one (N fuel : Nat) (hN : 1 ≤ N) (hf : 1 ≤ fuel) :
    ∃ U, compute_expected_length N fuel allUnknown 1 = .ok (some 1, U) := by
  obtain ⟨U, hU, _, _⟩ :=
    compute_expected_length_total N fuel allUnknown 1 Sound_allUnknown (le_refl _) hN hf
  rw [Nat.cast_one, Eref_one] at hU
  exact ⟨U, hU⟩

/-- Witness of the amended C12 for `N = 1` and fuel `1`. -/
theorem C12_expected_length_one_witness :
    ∃ U, compute_expected_length 1 1 allUnknown 1 = .ok (some 1, U) :=
  C12_expected_length_one 1 1 (by decide) (by decide)

/-- Claim C13 (each pair is computed once). In the full run for any `N`, with fuel at
least `N`, the instrumented run returns the same lines as `main`; no index pair occurs
twice among the cache misses of its log; every missed pair lies in `[1, N] × [1, N]` and
is computed in the final table; hence there are at most `N * N` misses. -/
theorem C13_each_pair_once (N fuel : Nat) (hf : N ≤ fuel) :
    ∃ out U log, main_loop_log N fuel N 1 ([], allUnknown, []) = .ok (out, U, log) ∧
      main N fuel = .ok out ∧
      (misses log).Nodup ∧
      (∀ p ∈ misses log, 1 ≤ p.1 ∧ p.1 ≤ (N : Int) ∧ 1 ≤ p.2 ∧ p.2 ≤ (N : Int) ∧
        U p.1 p.2 ≠ none) ∧
      (misses log).length ≤ N * N := by
  obtain ⟨U, log, h, _, _, hR, hSq, _⟩ := main_loop_log_run N fuel N (le_refl _) hf
  have hsq : ∀ p ∈ misses log, 1 ≤ p.1 ∧ p.1 ≤ (N : Int) ∧ 1 ≤ p.2 ∧ p.2 ≤ (N : Int) :=
    fun p hp => hSq _ (mem_misses log p hp)
  refine ⟨linesFrom 1 N, U, log, h, main_spec N fuel hf, hR.1, ?_, ?_⟩
  · intro p hp
    obtain ⟨h1, h2, h3, h4⟩ := hsq p hp
    exact ⟨h1, h2, h3, h4, (hR.2 p hp).2⟩
  · exact length_le_of_nodup_of_square N (misses log) hR.1 hsq

/-- Witness of C13 for `N = 3`. -/
theorem C13_each_pair_once_witness :
    ∃ out U log, main_loop_log 3 3 3 1 ([], allUnknown, []) = .ok (out, U, log) ∧
      main 3 3 = .ok out ∧
      (misses log).Nodup ∧
      (∀ p ∈ misses log, 1 ≤ p.1 ∧ p.1 ≤ ((3 : Nat) : Int) ∧ 1 ≤ p.2 ∧
        p.2 ≤ ((3 : Nat) : Int) ∧ U p.1 p.2 ≠ none) ∧
      (misses log).length ≤ 3 * 3 :=
  C13_each_pair_once 3 3 (by decide)

/-- Counterexample to C14: the full run for `N = 3` ends with entry `(1, 2)` computed,
an entry whose length exceeds its magnitude. -/
theorem C14_counterexample :
    ∃ out U, main_loop 3 3 3 1 ([], allUnknown) = .ok (out, U) ∧ U 1 2 = some (1 / 2) ∧
      ¬ ((1 : Int) ≤ 2 ∧ (2 : Int) ≤ 1) := by
  obtain ⟨U, hU, _, _⟩ :=
    main_loop_spec 3 3 (le_refl _) 3 1 [] allUnknown Sound_allUnknown (le_refl _) (by decide)
  rw [Nat.cast_one] at hU
  have hcell : (main_loop 3 3 3 1 ([], allUnknown)).map (fun r => r.2 1 2)
      = .ok (some (1 / 2)) := by
    norm_num [main_loop, compute_expected_length, cel_loop, F, F_loop, rd, wr, inRange, upd,
      allUnknown, vadd, vmul, vsub, vdiv, bind, Except.bind, Except.map]
  rw [hU] at hcell
  simp only [Except.map, Except.ok.injEq] at hcell
  exact ⟨_, U, hU, hcell, by decide⟩

/-- Claim C14, amended. In the table reached by the full run after the magnitudes
`1..M` have been processed (`M ≤ N`), an entry `(m, l)` holds a computed value only if
`1 ≤ m ≤ M` and `1 ≤ l ≤ M`. -/
theorem C14_entries_in_square (N fuel M : Nat) (hM : M ≤ N) (hf : N ≤ fuel) :
    ∃ out U, main_loop N fuel M 1 ([], allUnknown) = .ok (out, U) ∧
      ∀ (m l : Int) (q : ℚ), U m l = some q →
        1 ≤ m ∧ m ≤ (M : Int) ∧ 1 ≤ l ∧ l ≤ (M : Int) := by
  obtain ⟨U, log, _, h, _, _, _, hFr⟩ := main_loop_log_run N fuel M hM hf
  refine ⟨linesFrom 1 M, U, h, ?_⟩
  intro m l q hq
  obtain ⟨h1, h2, h3, h4⟩ := Frame_allUnknown hFr m l q hq
  exact ⟨h1, by omega, h3, by omega⟩

/-- Witness of the amended C14 for `N = 3`, after all three magnitudes. -/
theorem C14_entries_in_square_witness :
    ∃ out U, main_loop 3 3 3 1 ([], allUnknown) = .ok (out, U) ∧
      ∀ (m l : Int) (q : ℚ), U m l = some q →
        1 ≤ m ∧ m ≤ ((3 : Nat) : Int) ∧ 1 ≤ l ∧ l ≤ ((3 : Nat) : Int) :=
  C14_entries_in_square 3 3 3 (by decide) (by decide)

/-- Claim C15 (sub-results are written back). On a reachable table in which entry
`(m, l)` is unknown, with `2 ≤ m ≤ N`, `2 ≤ l ≤ N` and fuel at least `l`, the call
`F(m, l)` returns, and afterwards every entry `(i, l - 1)` with `1 ≤ i ≤ m - 1` holds the
memo-free recurrence value, which is the value `F(i, l - 1)` returns on the all-unknown
table. -/
theorem C15_subresults_stored (N fuel : Nat) (T : Table) (m l : Nat) (hT : Reachable N T)
    (hm : 2 ≤ m) (hmN : m ≤ N) (hl : 2 ≤ l) (hlN : l ≤ N) (hc : T m l = none)
    (hf : l ≤ fuel) :
    ∃ v U, F N fuel T m l = .ok (v, U) ∧
      ∀ i : Nat, 1 ≤ i → i ≤ m - 1 →
        U i ((l : Int) - 1) = some (Fref i (l - 1)) ∧
        ∃ V, F N fuel allUnknown i ((l : Int) - 1) = .ok (some (Fref i (l - 1)), V) := by
  rcases F_log_miss N fuel T m l hT.sound (by omega) hmN (by omega) hlN
    with ⟨_, hlt⟩ | ⟨U, log, h, _, _, _, hst⟩
  · omega
  · refine ⟨some (Fref m l), U, ?_, ?_⟩
    · rw [F_log_erase]
      exact eraseLog_ok _ _ _ _ h
    · intro i hi him
      refine ⟨hst hc hl i hi (by omega), ?_⟩
      have hcast : (l : Int) - 1 = ((l - 1 : Nat) : Int) := by omega
      rw [hcast]
      obtain ⟨V, hV, _, _⟩ := F_total N fuel allUnknown i (l - 1) Sound_allUnknown hi
        (by omega) (by omega) (by omega) (by omega)
      exact ⟨V, hV⟩

/-- Witness of C15 on the all-unknown table, for `N = 3`, `m = 3`, `l = 3`. -/
theorem C15_subresults_stored_witness :
    ∃ v U, F 3 3 allUnknown ((3 : Nat) : Int) ((3 : Nat) : Int) = .ok (v, U) ∧
      ∀ i : Nat, 1 ≤ i → i ≤ 3 - 1 →
        U i (((3 : Nat) : Int) - 1) = some (Fref i (3 - 1)) ∧
        ∃ V, F 3 3 allUnknown i (((3 : Nat) : Int) - 1) = .ok (some (Fref i (3 - 1)), V) :=
  C15_subresults_stored 3 3 allUnknown 3 3 Reachable.init (by decide) (by decide)
    (by decide) (by decide) rfl (by decide)

/-- Claim C16 (`F` does not store its own result). On any table, for `m, l` in `1..N`:
whenever `F(m, l)` returns, every entry outside `{(j, k) : 1 ≤ j < m, 1 ≤ k < l}` is
unchanged, in particular entry `(m, l)`; and with fuel at least `l` the call returns. -/
theorem C16_frame (N fuel : Nat) (T : Table) (m l : Nat) (hm : 1 ≤ m) (hmN : m ≤ N)
    (hl : 1 ≤ l) (hlN : l ≤ N) :
    (∀ v U, F N fuel T m l = .ok (v, U) →
      (∀ j k : Int, ¬ (1 ≤ j ∧ j < m ∧ 1 ≤ k ∧ k < l) → U j k = T j k) ∧
      U m l = T m l) ∧
    (l ≤ fuel → ∃ v U, F N fuel T m l = .ok (v, U)) := by
  rcases F_frame N fuel T m l hm hmN hl hlN with ⟨he, hlt⟩ | ⟨v, U, h, hFr⟩
  · refine ⟨?_, ?_⟩
    · intro v U h
      rw [he] at h
      cases h
    · intro hf
      omega
  · refine ⟨?_, fun _ => ⟨v, U, h⟩⟩
    intro v2 U2 h2
    rw [h] at h2
    simp only [Except.ok.injEq, Prod.mk.injEq] at h2
    obtain ⟨_, rfl⟩ := h2
    have key : ∀ j k : Int, ¬ (1 ≤ j ∧ j < m ∧ 1 ≤ k ∧ k < l) → U j k = T j k := by
      intro j k hjk
      by_contra hne
      exact hjk (hFr j k hne)
    exact ⟨key, key m l (by omega)⟩

/-- Witness of C16 on the all-unknown table, for `N = 3`, `m = 3`, `l = 3`. -/
theorem C16_frame_witness :
    (∀ v U, F 3 3 allUnknown ((3 : Nat) : Int) ((3 : Nat) : Int) = .ok (v, U) →
      (∀ j k : Int, ¬ (1 ≤ j ∧ j < ((3 : Nat) : Int) ∧ 1 ≤ k ∧ k < ((3 : Nat) : Int)) →
        U j k = allUnknown j k) ∧
      U ((3 : Nat) : Int) ((3 : Nat) : Int) = allUnknown ((3 : Nat) : Int) ((3 : Nat) : Int)) ∧
    (3 ≤ 3 → ∃ v U, F 3 3 allUnknown ((3 : Nat) : Int) ((3 : Nat) : Int) = .ok (v, U)) :=
  C16_frame 3 3 allUnknown 3 3 (by decide) (by decide) (by decide) (by decide)

/-- Claim C17 (termination by decreasing length). For `m ≥ 1`, `l ≥ 1`, any table and
fuel at least `l` (the fuel bounds the nesting depth of the calls): `F(m, l)` does not run
out of fuel; for `m, l ≤ N` it returns; and the loop of `F(m, l)` consults its recursive
calls only at arguments `(j, l - 1)` with `1 ≤ j ≤ m - 1`, where `l - 1 ≥ 1` because the
loop is entered only for `l ≠ 1`. -/
theorem C17_termination (N fuel : Nat) (T : Table) (m l : Nat) (hm : 1 ≤ m) (hl : 1 ≤ l)
    (hf : l ≤ fuel) :
    F N fuel T m l ≠ .error .outOfFuel ∧
    (m ≤ N → l ≤ N → ∃ v U, F N fuel T m l = .ok (v, U)) ∧
    (l = 1 → m ≤ N → l ≤ N → ∃ v, F N 1 T m l = .ok (v, T)) ∧
    (∀ call1 call2 : Table → Int → Int → Res (Val × Table),
      (∀ (U : Table) (j : Int), 1 ≤ j → j ≤ (m : Int) - 1 →
        call1 U j ((l : Int) - 1) = call2 U j ((l : Int) - 1)) →
      ∀ st : Val × Table,
        F_loop call1 N m l ((m : Int) - 1).toNat 1 st
          = F_loop call2 N m l ((m : Int) - 1).toNat 1 st) := by
  refine ⟨F_not_outOfFuel N fuel T m l (by omega) (by omega) (by omega), ?_, ?_, ?_⟩
  · intro hmN hlN
    rcases F_frame N fuel T m l hm hmN hl hlN with ⟨_, hlt⟩ | ⟨v, U, h, _⟩
    · omega
    · exact ⟨v, U, h⟩
  · intro hl1 hmN hlN
    subst hl1
    have hr := rd_ok N T m 1 hmN hlN
    rw [F, hr]
    simp only [bind, Except.bind]
    split
    · exact ⟨_, rfl⟩
    · split
      · exact ⟨_, rfl⟩
      · rw [if_pos (by rfl)]
        exact ⟨_, rfl⟩
  · intro call1 call2 h st
    exact F_loop_congr call1 call2 N m l h _ 1 st (le_refl _) (by omega)

/-- Witness of C17 on the all-unknown table, for `N = 3`, `m = 3`, `l = 3`. -/
theorem C17_termination_witness :
    F 3 3 allUnknown ((3 : Nat) : Int) ((3 : Nat) : Int) ≠ .error .outOfFuel ∧
    (3 ≤ 3 → 3 ≤ 3 → ∃ v U, F 3 3 allUnknown ((3 : Nat) : Int) ((3 : Nat) : Int) = .ok (v, U)) ∧
    (3 = 1 → 3 ≤ 3 → 3 ≤ 3 →
      ∃ v, F 3 1 allUnknown ((3 : Nat) : Int) ((3 : Nat) : Int) = .ok (v, allUnknown)) ∧
    (∀ call1 call2 : Table → Int → Int → Res (Val × Table),
      (∀ (U : Table) (j : Int), 1 ≤ j → j ≤ ((3 : Nat) : Int) - 1 →
        call1 U j (((3 : Nat) : Int) - 1) = call2 U j (((3 : Nat) : Int) - 1)) →
      ∀ st : Val × Table,
        F_loop call1 3 ((3 : Nat) : Int) ((3 : Nat) : Int) (((3 : Nat) : Int) - 1).toNat 1 st
          = F_loop call2 3 ((3 : Nat) : Int) ((3 : Nat) : Int) (((3 : Nat) : Int) - 1).toNat 1
            st) :=
  C17_termination 3 3 allUnknown 3 3 (by decide) (by decide) (by decide)

/-- Claim C18 (in-bounds table access). On any table, for `m, l` in `1..N`: `F(m, l)`
never faults on an out-of-range index, and with fuel at least `l` its instrumented run
returns the same value and table with every logged access, nested calls included, inside
`[1, N] × [1, N]`. Likewise `compute_expected_length(m)` never faults on an out-of-range
index, every access logged by a returning run is inside `[1, N] × [1, N]`, and on a
reachable table with fuel at least `m` the run returns. -/
theorem C18_in_bounds (N fuel : Nat) (T : Table) (m l : Nat) (hm : 1 ≤ m) (hmN : m ≤ N)
    (hl : 1 ≤ l) (hlN : l ≤ N) :
    F N fuel T m l ≠ .error .outOfBounds ∧
    (l ≤ fuel → ∃ v U log, F_log N fuel T m l = .ok (v, U, log) ∧
      F N fuel T m l = .ok (v, U) ∧ ∀ e ∈ log, InSquare N e) ∧
    compute_expected_length N fuel T m ≠ .error .outOfBounds ∧
    (∀ v U log, compute_expected_length_log N fuel T m = .ok (v, U, log) →
      compute_expected_length N fuel T m = .ok (v, U) ∧ ∀ e ∈ log, InSquare N e) ∧
    (Reachable N T → m ≤ fuel →
      ∃ v U log, compute_expected_length_log N fuel T m = .ok (v, U, log)) := by
  refine ⟨?_, ?_, ?_, ?_, ?_⟩
  · rcases F_frame N fuel T m l hm hmN hl hlN with ⟨he, _⟩ | ⟨v, U, h, _⟩
    · rw [he]
      intro hbad
      cases hbad
    · rw [h]
      intro hbad
      cases hbad
  · intro hf
    rcases F_log_frame N fuel T m l hm hmN hl hlN with ⟨_, hlt⟩ | ⟨v, U, log, h, _, hSq⟩
    · omega
    · refine ⟨v, U, log, h, ?_, hSq⟩
      rw [F_log_erase]
      exact eraseLog_ok _ _ _ _ h
  · rw [compute_expected_length_log_erase]
    rcases compute_expected_length_log_frame N fuel T m hm hmN
      with ⟨he, _⟩ | he | ⟨v, U, log, h, _, _⟩
    · rw [he]
      intro hbad
      cases hbad
    · rw [he]
      intro hbad
      cases hbad
    · rw [h]
      intro hbad
      cases hbad
  · intro v U log h
    refine ⟨?_, ?_⟩
    · rw [compute_expected_length_log_erase]
      exact eraseLog_ok _ _ _ _ h
    · rcases compute_expected_length_log_frame N fuel T m hm hmN
        with ⟨he, _⟩ | he | ⟨v2, U2, log2, h2, _, hSq⟩
      · rw [he] at h
        cases h
      · rw [he] at h
        cases h
      · rw [h] at h2
        simp only [Except.ok.injEq, Prod.mk.injEq] at h2
        obtain ⟨_, _, rfl⟩ := h2
        exact hSq
  · intro hT hf
    rcases compute_expected_length_log_miss N fuel T m hT.sound hm hmN
      with ⟨_, hlt⟩ | ⟨U, log, h, _⟩
    · omega
    · exact ⟨_, U, log, h⟩

/-- Witness of C18 on the all-unknown table, for `N = 3`, `m = 3`, `l = 3`. -/
theorem C18_in_bounds_witness :
    F 3 3 allUnknown ((3 : Nat) : Int) ((3 : Nat) : Int) ≠ .error .outOfBounds ∧
    (3 ≤ 3 → ∃ v U log, F_log 3 3 allUnknown ((3 : Nat) : Int) ((3 : Nat) : Int)
        = .ok (v, U, log) ∧
      F 3 3 allUnknown ((3 : Nat) : Int) ((3 : Nat) : Int) = .ok (v, U) ∧
      ∀ e ∈ log, InSquare 3 e) ∧
    compute_expected_length 3 3 allUnknown ((3 : Nat) : Int) ≠ .error .outOfBounds ∧
    (∀ v U log, compute_expected_length_log 3 3 allUnknown ((3 : Nat) : Int) = .ok (v, U, log) →
      compute_expected_length 3 3 allUnknown ((3 : Nat) : Int) = .ok (v, U) ∧
      ∀ e ∈ log, InSquare 3 e) ∧
    (Reachable 3 allUnknown → 3 ≤ 3 →
      ∃ v U log, compute_expected_length_log 3 3 allUnknown ((3 : Nat) : Int)
        = .ok (v, U, log)) :=
  C18_in_bounds 3 3 allUnknown 3 3 (by decide) (by decide) (by decide) (by decide)

/-- Claim C19, amended. In exact rational arithmetic in place of double: on every
reachable table, for `m, l` in `1..N`, the value `F(m, l)` times `2^(2m-1)` is the number
of binary plane trees with `m - 1` internal nodes whose height is at most `l - 1`, which
is the number of networks of magnitude `m` with length at most `l`; and
`F(m, m) = Catalan(m - 1) / 2^(2m-1)`. -/
theorem C19_counts_trees (N fuel : Nat) (T : Table) (m l : Nat) (hT : Reachable N T)
    (hm : 1 ≤ m) (hmN : m ≤ N) (hl : 1 ≤ l) (hlN : l ≤ N) (hf : l ≤ fuel) :
    (∃ q U, F N fuel T m l = .ok (some q, U) ∧
      q * 2 ^ (2 * m - 1) = ((treesHeightLe (m - 1) (l - 1)).card : ℚ)) ∧
    (∀ t : Tree Unit, t ∈ treesHeightLe (m - 1) (l - 1) ↔
      t.numNodes = m - 1 ∧ t.height ≤ l - 1) ∧
    treesHeightLe (m - 1) (l - 1) = ((networks m).filter fun t => networkLength t ≤ l) ∧
    (m ≤ fuel → ∃ d V, F N fuel T m m = .ok (some d, V) ∧
      d = (catalan (m - 1) : ℚ) / 2 ^ (2 * m - 1)) := by
  obtain ⟨n, rfl⟩ : ∃ n, m = n + 1 := ⟨m - 1, by omega⟩
  obtain ⟨h, rfl⟩ : ∃ h, l = h + 1 := ⟨l - 1, by omega⟩
  have hn : n + 1 - 1 = n := by omega
  have hh : h + 1 - 1 = h := by omega
  have he : 2 * (n + 1) - 1 = 2 * n + 1 := by omega
  refine ⟨?_, ?_, ?_, ?_⟩
  · obtain ⟨U, hU, _, _⟩ := F_total N fuel T (n + 1) (h + 1) hT.sound hm hmN hl hlN hf
    refine ⟨Fref (n + 1) (h + 1), U, hU, ?_⟩
    rw [hn, hh, he]
    exact Fref_counts h n
  · intro t
    exact mem_treesHeightLe _ _ t
  · exact (filter_networkLength_le (n + 1) (h + 1) hl).symm
  · intro hf2
    obtain ⟨V, hV, _, _⟩ := F_total N fuel T (n + 1) (n + 1) hT.sound hm hmN hm hmN hf2
    refine ⟨Fref (n + 1) (n + 1), V, hV, ?_⟩
    rw [hn, he, ← Fref_diag n]
    have hp : (2 : ℚ) ^ (2 * n + 1) ≠ 0 := by positivity
    field_simp

/-- Witness of C19 on the table left by `F(2, 2)`, for `N = 2`, `m = 2`, `l = 2`. -/
theorem C19_counts_trees_witness :
    (∃ q U, F 2 2 warm ((2 : Nat) : Int) ((2 : Nat) : Int) = .ok (some q, U) ∧
      q * 2 ^ (2 * 2 - 1) = ((treesHeightLe (2 - 1) (2 - 1)).card : ℚ)) ∧
    (∀ t : Tree Unit, t ∈ treesHeightLe (2 - 1) (2 - 1) ↔
      t.numNodes = 2 - 1 ∧ t.height ≤ 2 - 1) ∧
    treesHeightLe (2 - 1) (2 - 1) = ((networks 2).filter fun t => networkLength t ≤ 2) ∧
    (2 ≤ 2 → ∃ d V, F 2 2 warm ((2 : Nat) : Int) ((2 : Nat) : Int) = .ok (some d, V) ∧
      d = (catalan (2 - 1) : ℚ) / 2 ^ (2 * 2 - 1)) :=
  C19_counts_trees 2 2 warm 2 2 warm_reachable (by decide) (by decide) (by decide)
    (by decide) (by decide)

/-- Claim C20 (monotone in the length). For `m ≥ 1` and `l ≥ 1` the memo-free recurrence
satisfies `Fref m l ≤ Fref m (l + 1)`; hence `Fref m i ≤ Fref m m` for `1 ≤ i ≤ m`, and
each term `Fref m i / Fref m m` summed by `compute_expected_length` lies in `[0, 1]`. The
values `F` returns on a reachable table are ordered in the same way. -/
theorem C20_monotone (m l : Nat) (hm : 1 ≤ m) (hl : 1 ≤ l) :
    Fref m l ≤ Fref m (l + 1) ∧
    (∀ i : Nat, 1 ≤ i → i ≤ m →
      Fref m i ≤ Fref m m ∧ 0 ≤ Fref m i / Fref m m ∧ Fref m i / Fref m m ≤ 1) ∧
    (∀ (N fuel : Nat) (T : Table), Reachable N T → m ≤ N → l + 1 ≤ N → l + 1 ≤ fuel →
      ∃ q q2 U V, F N fuel T m l = .ok (some q, U) ∧
        F N fuel T m ((l + 1 : Nat) : Int) = .ok (some q2, V) ∧ q ≤ q2) := by
  refine ⟨Fref_mono_succ l hl m, ?_, ?_⟩
  · intro i hi him
    have hpos : 0 < Fref m m := Fref_pos m m hm (le_refl _)
    have hle : Fref m i ≤ Fref m m := Fref_mono m i m hi him
    exact ⟨hle, div_nonneg (Fref_nonneg m i) (le_of_lt hpos), (div_le_one hpos).mpr hle⟩
  · intro N fuel T hT hmN hlN hf
    obtain ⟨U, hU, _, _⟩ := F_total N fuel T m l hT.sound hm hmN hl (by omega) (by omega)
    obtain ⟨V, hV, _, _⟩ := F_total N fuel T m (l + 1) hT.sound hm hmN (by omega) hlN hf
    exact ⟨Fref m l, Fref m (l + 1), U, V, hU, hV, Fref_mono_succ l hl m⟩

/-- Witness of C20 for `m = 3`, `l = 2`. -/
theorem C20_monotone_witness :
    Fref 3 2 ≤ Fref 3 (2 + 1) ∧
    (∀ i : Nat, 1 ≤ i → i ≤ 3 →
      Fref 3 i ≤ Fref 3 3 ∧ 0 ≤ Fref 3 i / Fref 3 3 ∧ Fref 3 i / Fref 3 3 ≤ 1) ∧
    (∀ (N fuel : Nat) (T : Table), Reachable N T → 3 ≤ N → 2 + 1 ≤ N → 2 + 1 ≤ fuel →
      ∃ q q2 U V, F N fuel T ((3 : Nat) : Int) ((2 : Nat) : Int) = .ok (some q, U) ∧
        F N fuel T ((3 : Nat) : Int) ((2 + 1 : Nat) : Int) = .ok (some q2, V) ∧ q ≤ q2) :=
  C20_monotone 3 2 (by decide) (by decide)

/-! ## The rounded program with the identity rounding is the exact program -/

theorem vaddR_id (a b : Val) : vaddR id a b = vadd a b := by
  cases a <;> cases b <;> rfl

theorem vmulR_id (a b : Val) : vmulR id a b = vmul a b := by
  cases a <;> cases b <;> rfl

theorem vsubR_id (a b : Val) : vsubR id a b = vsub a b := by
  cases a <;> cases b <;> rfl

theorem vdivR_id (a b : Val) : vdivR id a b = vdiv a b := by
  cases a <;> cases b <;> rfl

theorem F_loop_rnd_id (call : Table → Int → Int → Res (Val × Table)) (N : Nat) (m l : Int) :
    ∀ (n : Nat) (i : Int) (st : Val × Table),
      F_loop_rnd id call N m l n i st = F_loop call N m l n i st := by
  intro n
  induction n with
  | zero =>
    intro i st
    rfl
  | succ n ih =>
    intro i st
    obtain ⟨s, T⟩ := st
    rw [F_loop_rnd, F_loop]
    simp only [ih, vaddR_id, vmulR_id]

theorem F_rnd_id (N : Nat) : ∀ (fuel : Nat) (T : Table) (m l : Int),
    F_rnd id N fuel T m l = F N fuel T m l := by
  intro fuel
  induction fuel with
  | zero =>
    intro T m l
    rfl
  | succ fuel ih =>
    intro T m l
    have hcall : F_rnd id N fuel = F N fuel := by
      funext U a b
      exact ih U a b
    rw [F_rnd, F, hcall]
    simp only [F_loop_rnd_id, vmulR_id]

theorem cel_loop_rnd_id (N fuel : Nat) (m : Int) :
    ∀ (n : Nat) (i : Int) (st : Val × Table),
      cel_loop_rnd id N fuel m n i st = cel_loop N fuel m n i st := by
  intro n
  induction n with
  | zero =>
    intro i st
    rfl
  | succ n ih =>
    intro i st
    obtain ⟨s, T⟩ := st
    rw [cel_loop_rnd, cel_loop]
    simp only [ih, F_rnd_id, vaddR_id, vdivR_id]

theorem compute_expected_length_rnd_id (N fuel : Nat) (T : Table) (m : Int) :
    compute_expected_length_rnd id N fuel T m = compute_expected_length N fuel T m := by
  unfold compute_expected_length_rnd compute_expected_length
  simp only [F_rnd_id, cel_loop_rnd_id, vsubR_id, id]

/-! ## Properties of the rounding -/

theorem halvings_spec : ∀ (f n : Nat), n ≤ f → n ≠ 0 →
    2 ^ halvings f n ≤ n ∧ n < 2 ^ (halvings f n + 1) := by
  intro f
  induction f with
  | zero =>
    intro n hn h0
    omega
  | succ f ih =>
    intro n hn h0
    rw [halvings]
    split
    · rename_i h2
      obtain ⟨h1, h3⟩ := ih (n / 2) (by omega) (by omega)
      constructor
      · rw [pow_succ]
        omega
      · rw [pow_succ]
        omega
    · simp only [pow_zero, zero_add, pow_one]
      omega

theorem natLog2_spec (n : Nat) (h0 : n ≠ 0) :
    2 ^ natLog2 n ≤ n ∧ n < 2 ^ (natLog2 n + 1) :=
  halvings_spec n n (le_refl _) h0

theorem abs_eq_natAbs_div_den (q : ℚ) : |q| = (q.num.natAbs : ℚ) / (q.den : ℚ) := by
  have hden : (0 : ℚ) < q.den := by exact_mod_cast q.den_pos
  conv_lhs => rw [← Rat.num_div_den q]
  rw [abs_div, abs_of_pos hden]
  rw [Nat.cast_natAbs, Int.cast_abs]

/-- The exponent found by `log2floor` is the binary exponent of `q`. -/
theorem log2floor_spec (q : ℚ) (h0 : q ≠ 0) :
    (2 : ℚ) ^ log2floor q ≤ |q| ∧ |q| < (2 : ℚ) ^ (log2floor q + 1) := by
  have ha0 : q.num.natAbs ≠ 0 := by
    rw [Int.natAbs_ne_zero]
    exact Rat.num_ne_zero.mpr h0
  have hb0 : q.den ≠ 0 := q.den_nz
  obtain ⟨ha1, ha2⟩ := natLog2_spec q.num.natAbs ha0
  obtain ⟨hb1, hb2⟩ := natLog2_spec q.den hb0
  have hbpos : (0 : ℚ) < q.den := by exact_mod_cast q.den_pos
  have ha1q : (2 : ℚ) ^ natLog2 q.num.natAbs ≤ (q.num.natAbs : ℚ) := by exact_mod_cast ha1
  have ha2q : (q.num.natAbs : ℚ) < (2 : ℚ) ^ (natLog2 q.num.natAbs + 1) := by
    exact_mod_cast ha2
  have hb1q : (2 : ℚ) ^ natLog2 q.den ≤ (q.den : ℚ) := by exact_mod_cast hb1
  have hb2q : (q.den : ℚ) < (2 : ℚ) ^ (natLog2 q.den + 1) := by exact_mod_cast hb2
  have h2 : (2 : ℚ) ≠ 0 := by norm_num
  have habs := abs_eq_natAbs_div_den q
  unfold log2floor
  split
  · rename_i hle
    refine ⟨hle, ?_⟩
    rw [habs, div_lt_iff₀ hbpos]
    have hexp : (2 : ℚ) ^ ((natLog2 q.num.natAbs : Int) - (natLog2 q.den : Int) + 1)
        = (2 : ℚ) ^ (natLog2 q.num.natAbs + 1) / (2 : ℚ) ^ natLog2 q.den := by
      rw [eq_div_iff (by positivity), ← zpow_natCast, ← zpow_natCast, ← zpow_add₀ h2]
      congr 1
      push_cast
      ring
    rw [hexp, div_mul_eq_mul_div, lt_div_iff₀ (by positivity)]
    calc (q.num.natAbs : ℚ) * (2 : ℚ) ^ natLog2 q.den
        ≤ (q.num.natAbs : ℚ) * (q.den : ℚ) :=
          mul_le_mul_of_nonneg_left hb1q (by positivity)
      _ < (2 : ℚ) ^ (natLog2 q.num.natAbs + 1) * (q.den : ℚ) :=
          mul_lt_mul_of_pos_right ha2q hbpos
  · rename_i hnle
    have hlt := lt_of_not_le hnle
    constructor
    · rw [habs, le_div_iff₀ hbpos]
      have hexp : (2 : ℚ) ^ ((natLog2 q.num.natAbs : Int) - (natLog2 q.den : Int) - 1)
          = (2 : ℚ) ^ natLog2 q.num.natAbs / (2 : ℚ) ^ (natLog2 q.den + 1) := by
        rw [eq_div_iff (by positivity), ← zpow_natCast, ← zpow_natCast, ← zpow_add₀ h2]
        congr 1
        push_cast
        ring
      rw [hexp, div_mul_eq_mul_div, div_le_iff₀ (by positivity)]
      calc (2 : ℚ) ^ natLog2 q.num.natAbs * (q.den : ℚ)
          ≤ (q.num.natAbs : ℚ) * (q.den : ℚ) :=
            mul_le_mul_of_nonneg_right ha1q (le_of_lt hbpos)
        _ ≤ (q.num.natAbs : ℚ) * (2 : ℚ) ^ (natLog2 q.den + 1) :=
            mul_le_mul_of_nonneg_left (le_of_lt hb2q) (by positivity)
    · have he : (natLog2 q.num.natAbs : Int) - (natLog2 q.den : Int) - 1 + 1
          = (natLog2 q.num.natAbs : Int) - (natLog2 q.den : Int) := by ring
      rw [he]
      exact hlt

theorem roundEven_cases (y : ℚ) : roundEven y = ⌊y⌋ ∨ roundEven y = ⌊y⌋ + 1 := by
  unfold roundEven
  split
  · exact Or.inl rfl
  · split
    · exact Or.inr rfl
    · split
      · exact Or.inl rfl
      · exact Or.inr rfl

/-- The rounded integer is within one half of the number. -/
theorem roundEven_error (y : ℚ) : |(roundEven y : ℚ) - y| ≤ 1 / 2 := by
  have h1 : (⌊y⌋ : ℚ) ≤ y := Int.floor_le y
  have h2 : y < (⌊y⌋ : ℚ) + 1 := Int.lt_floor_add_one y
  unfold roundEven
  rw [abs_le]
  split
  · constructor <;> linarith
  · split
    · push_cast
      constructor <;> linarith
    · rename_i h3 h4
      have h5 : y - (⌊y⌋ : ℚ) = 1 / 2 := le_antisymm (not_lt.mp h4) (not_lt.mp h3)
      split
      · constructor <;> linarith
      · push_cast
        constructor <;> linarith

theorem ulpExp_ge (q : ℚ) : log2floor q - 52 ≤ ulpExp q ∧ -1074 ≤ ulpExp q := by
  unfold ulpExp
  exact ⟨le_max_left _ _, le_max_right _ _⟩

theorem rnd64_eq (q : ℚ) (h0 : q ≠ 0) :
    rnd64 q = (roundEven (q / (2 : ℚ) ^ ulpExp q) : ℚ) * (2 : ℚ) ^ ulpExp q := by
  unfold rnd64
  rw [if_neg h0]

/-- A rounded number has at most 53 significant bits. -/
theorem Fits53_rnd64 (q : ℚ) : Fits53 (rnd64 q) := by
  by_cases h0 : q = 0
  · subst h0
    exact ⟨0, 0, by norm_num, by simp [rnd64]⟩
  · rw [rnd64_eq q h0]
    refine ⟨roundEven (q / (2 : ℚ) ^ ulpExp q), ulpExp q, ?_, rfl⟩
    have hpow : (0 : ℚ) < (2 : ℚ) ^ ulpExp q := by positivity
    have hlt : |q / (2 : ℚ) ^ ulpExp q| < (2 : ℚ) ^ (53 : Nat) := by
      rw [abs_div, abs_of_pos hpow, div_lt_iff₀ hpow]
      calc |q| < (2 : ℚ) ^ (log2floor q + 1) := (log2floor_spec q h0).2
        _ = (2 : ℚ) ^ (53 : Nat) * (2 : ℚ) ^ (log2floor q - 52) := by
            rw [← zpow_natCast, ← zpow_add₀ (by norm_num : (2 : ℚ) ≠ 0)]
            congr 1
            push_cast
            ring
        _ ≤ (2 : ℚ) ^ (53 : Nat) * (2 : ℚ) ^ ulpExp q := by
            apply mul_le_mul_of_nonneg_left _ (by positivity)
            exact zpow_le_zpow_right₀ (by norm_num) (ulpExp_ge q).1
    rw [abs_lt] at hlt
    have hfl : (-(2 : Int) ^ 53) ≤ ⌊q / (2 : ℚ) ^ ulpExp q⌋ := by
      rw [Int.le_floor]
      push_cast
      linarith [hlt.1]
    have hfu : ⌊q / (2 : ℚ) ^ ulpExp q⌋ < (2 : Int) ^ 53 := by
      rw [Int.floor_lt]
      push_cast
      exact hlt.2
    rw [abs_le]
    rcases roundEven_cases (q / (2 : ℚ) ^ ulpExp q) with h | h
    · rw [h]
      constructor <;> omega
    · rw [h]
      constructor <;> omega

/-- The rounded number is within half a unit in the last place of the number. -/
theorem rnd64_error (q : ℚ) : |rnd64 q - q| ≤ (2 : ℚ) ^ ulpExp q / 2 := by
  by_cases h0 : q = 0
  · subst h0
    simp only [rnd64, if_true, sub_zero, abs_zero]
    positivity
  · have hpow : (0 : ℚ) < (2 : ℚ) ^ ulpExp q := by positivity
    have h := roundEven_error (q / (2 : ℚ) ^ ulpExp q)
    rw [rnd64_eq q h0]
    have hq : (roundEven (q / (2 : ℚ) ^ ulpExp q) : ℚ) * (2 : ℚ) ^ ulpExp q - q
        = ((roundEven (q / (2 : ℚ) ^ ulpExp q) : ℚ) - q / (2 : ℚ) ^ ulpExp q)
          * (2 : ℚ) ^ ulpExp q := by
      field_simp
    rw [hq, abs_mul, abs_of_pos hpow]
    calc |(roundEven (q / (2 : ℚ) ^ ulpExp q) : ℚ) - q / (2 : ℚ) ^ ulpExp q| * (2 : ℚ) ^ ulpExp q
        ≤ 1 / 2 * (2 : ℚ) ^ ulpExp q := mul_le_mul_of_nonneg_right h (le_of_lt hpow)
      _ = (2 : ℚ) ^ ulpExp q / 2 := by ring

/-! ## The rounded program returns rounded values -/

theorem F_loop_rnd_spec (r : ℚ → ℚ) (N : Nat) (call : Table → Int → Int → Res (Val × Table))
    (m k : Nat) (P : Prop) (hkN : k ≤ N) (hk : 1 ≤ k) (hm : m ≤ N)
    (hcall : ∀ (T : Table) (i : Nat), 1 ≤ i → i ≤ N →
      (call T i k = .error .outOfFuel ∧ P) ∨ RSpec r T i k (call T i k)) :
    ∀ (n i : Nat) (s : ℚ) (T : Table), 1 ≤ i → i + n = m →
      (F_loop_rnd r call N m ((k : Int) + 1) n i (some s, T) = .error .outOfFuel ∧ P) ∨
      ∃ s2 U, F_loop_rnd r call N m ((k : Int) + 1) n i (some s, T) = .ok (some s2, U)
        ∧ Frame T U m ((k : Int) + 1) := by
  intro n
  induction n with
  | zero =>
    intro i s T _ _
    right
    exact ⟨s, T, rfl, Frame_refl T _ _⟩
  | succ n ih =>
    intro i s T hi him
    have hiN : i ≤ N := by omega
    have hsub : (m : Int) - (i : Int) = ((m - i : Nat) : Int) := by omega
    have hcanc : (k : Int) + 1 - 1 = (k : Int) := by omega
    rw [F_loop_rnd, hcanc, hsub]
    rcases hcall T i hi hiN with ⟨he, hP⟩ | ⟨q1, U1, h1, hF1, _, _⟩
    · left
      rw [he]
      exact ⟨rfl, hP⟩
    · rw [h1]
      simp only [bind, Except.bind]
      rw [wr_ok N U1 i k _ hiN hkN]
      simp only
      rcases hcall (upd U1 i k (some q1)) (m - i) (by omega) (by omega)
        with ⟨he, hP⟩ | ⟨q2, U3, h3, hF3, _, _⟩
      · left
        rw [he]
        exact ⟨rfl, hP⟩
      · rw [h3]
        simp only
        rw [wr_ok N U3 (m - i) k _ (by omega) hkN]
        simp only
        rw [rd_ok N _ i k hiN hkN, rd_ok N _ (m - i) k (by omega) hkN]
        simp only
        have h3ik : U3 i k = some q1 := by
          by_contra hne
          have hch : U3 i k ≠ upd U1 i k (some q1) i k := by
            rw [upd_same]
            exact hne
          have := hF3 i k hch
          omega
        have ha : ∃ a, upd U3 ((m - i : Nat) : Int) k (some q2) i k = some a := by
          unfold upd
          split
          · exact ⟨q2, rfl⟩
          · exact ⟨q1, h3ik⟩
        obtain ⟨a, ha⟩ := ha
        rw [ha, upd_same]
        have hi1 : ((i : Int) + 1) = ((i + 1 : Nat) : Int) := by push_cast; rfl
        simp only [vmulR, vaddR]
        rw [hi1]
        have hFa : Frame T (upd U1 i k (some q1)) m ((k : Int) + 1) :=
          Frame_trans (Frame_mono hF1 (by omega) (by omega))
            (Frame_upd U1 i k m _ _ (by omega) (by omega) (by omega) (by omega))
        have hFb : Frame (upd U1 i k (some q1)) (upd U3 ((m - i : Nat) : Int) k (some q2)) m
            ((k : Int) + 1) :=
          Frame_trans (Frame_mono hF3 (by omega) (by omega))
            (Frame_upd U3 _ k m _ _ (by omega) (by omega) (by omega) (by omega))
        rcases ih (i + 1) _ _ (by omega) (by omega) with ⟨he, hP⟩ | ⟨s2, U, h, hF⟩
        · left
          exact ⟨he, hP⟩
        · right
          exact ⟨s2, U, h, Frame_trans (Frame_trans hFa hFb) hF⟩

theorem F_rnd_spec (r : ℚ → ℚ) (N : Nat) : ∀ (fuel : Nat) (T : Table) (m l : Nat),
    1 ≤ m → m ≤ N → 1 ≤ l → l ≤ N →
    (F_rnd r N fuel T m l = .error .outOfFuel ∧ fuel < l) ∨
      RSpec r T m l (F_rnd r N fuel T m l) := by
  intro fuel
  induction fuel with
  | zero =>
    intro T m l _ _ hl _
    left
    exact ⟨rfl, by omega⟩
  | succ fuel ih =>
    intro T m l hm hmN hl hlN
    rw [F_rnd, rd_ok N T m l hmN hlN]
    simp only [bind, Except.bind]
    cases hc : T m l with
    | some q =>
      right
      refine ⟨q, T, by simp, Frame_refl T _ _, ?_, ?_⟩
      · intro w hw
        rw [hc] at hw
        exact Option.some.inj hw
      · intro h
        rw [hc] at h
        cases h
    | none =>
      simp only [Option.isSome_none, Bool.false_eq_true, if_false]
      by_cases h1 : m = 1
      · subst h1
        right
        refine ⟨1 / 2, T, by simp, Frame_refl T _ _, ?_, ?_⟩
        · intro w hw
          rw [hc] at hw
          cases hw
        · intro _ hne
          exact absurd rfl hne
      · have h1i : ¬ ((m : Int) = 1) := by omega
        rw [if_neg h1i]
        by_cases h2 : l = 1
        · subst h2
          right
          refine ⟨0, T, by simp, Frame_refl T _ _, ?_, ?_⟩
          · intro w hw
            rw [hc] at hw
            cases hw
          · intro _ _ hne
            exact absurd rfl hne
        · have h2i : ¬ ((l : Int) = 1) := by omega
          rw [if_neg h2i]
          obtain ⟨k, rfl⟩ : ∃ k, l = k + 1 := ⟨l - 1, by omega⟩
          have hk : 1 ≤ k := by omega
          have hn : ((m : Int) - 1).toNat = m - 1 := by omega
          have hcast : ((k + 1 : Nat) : Int) = (k : Int) + 1 := by push_cast; rfl
          rw [hn, hcast]
          rw [hcast] at hc
          have key := F_loop_rnd_spec r N (F_rnd r N fuel) m k (fuel < k) (by omega) hk hmN
            (fun U i hi hiN => ih U i k hi hiN hk (by omega))
            (m - 1) 1 0 T (le_refl _) (by omega)
          rw [Nat.cast_one] at key
          rcases key with ⟨he, hP⟩ | ⟨s2, U, h, hF⟩
          · left
            rw [he]
            exact ⟨rfl, by omega⟩
          · right
            rw [h]
            refine ⟨r (1 / 2 * s2), U, rfl, ?_, ?_, ?_⟩
            · exact hF
            · intro w hw
              rw [hc] at hw
              cases hw
            · intro _ _ _
              exact ⟨_, rfl⟩

/-- A number with an odd numerator above `2^53` over a power of two does not fit in 53
significant bits. -/
theorem not_Fits53_of_odd (c k : Nat) (hodd : c % 2 = 1) (hbig : 2 ^ 53 < c) :
    ¬ Fits53 ((c : ℚ) / (2 : ℚ) ^ k) := by
  rintro ⟨n, e, hn, he⟩
  have h2 : (2 : ℚ) ≠ 0 := by norm_num
  have hc : (c : ℚ) = (n : ℚ) * (2 : ℚ) ^ (e + (k : Int)) := by
    rw [zpow_add₀ h2, zpow_natCast, ← mul_assoc, ← he]
    field_simp
  rw [abs_le] at hn
  rcases le_or_lt 0 (e + (k : Int)) with hpos | hneg
  · obtain ⟨j, hj⟩ := Int.eq_ofNat_of_zero_le hpos
    rw [hj, zpow_natCast] at hc
    have hcz : (c : Int) = n * 2 ^ j := by exact_mod_cast hc
    cases j with
    | zero =>
      simp only [pow_zero, mul_one] at hcz
      omega
    | succ j =>
      have hev : (c : Int) = 2 * (n * 2 ^ j) := by
        rw [hcz, pow_succ]
        ring
      generalize n * 2 ^ j = t at hev
      omega
  · obtain ⟨j, hj⟩ := Int.eq_ofNat_of_zero_le (by omega : 0 ≤ -(e + (k : Int)))
    have hej : e + (k : Int) = -(j : Int) := by omega
    rw [hej, zpow_neg, zpow_natCast] at hc
    have hcq : (c : ℚ) * (2 : ℚ) ^ j = (n : ℚ) := by
      rw [hc]
      field_simp
    have hcz : (c : Int) * 2 ^ j = n := by exact_mod_cast hcq
    have hpow : (1 : Int) ≤ 2 ^ j := one_le_pow₀ (by norm_num)
    have hcpos : (0 : Int) ≤ (c : Int) := Int.ofNat_nonneg c
    have hle : (c : Int) ≤ (c : Int) * 2 ^ j := le_mul_of_one_le_right hcpos hpow
    rw [hcz] at hle
    omega

theorem catalan_31 : catalan 31 = 14544636039226909 := by
  rw [catalan_eq_centralBinom_div, Nat.centralBinom_eq_two_mul_choose,
    Nat.choose_eq_factorial_div_factorial (by norm_num)]
  decide!

/-! ## Concrete values at magnitude 4 and 32 -/

theorem lengthProb_eq_sub (m l : Nat) (hl : 2 ≤ l) :
    lengthProb m l = lengthCumProb m l - lengthCumProb m (l - 1) := by
  unfold lengthProb lengthCumProb
  rw [← sub_div]
  congr 1
  have h : (((networks m).filter fun t => networkLength t ≤ l).filter
        fun t => networkLength t = l).card
      + (((networks m).filter fun t => networkLength t ≤ l).filter
        fun t => ¬ networkLength t = l).card
      = ((networks m).filter fun t => networkLength t ≤ l).card :=
    Finset.filter_card_add_filter_neg_card_eq_card _
  rw [Finset.filter_filter, Finset.filter_filter] at h
  have h1 : ((networks m).filter fun t => networkLength t ≤ l ∧ networkLength t = l)
      = (networks m).filter fun t => networkLength t = l := by
    apply Finset.filter_congr
    intro t _
    omega
  have h2 : ((networks m).filter fun t => networkLength t ≤ l ∧ ¬ networkLength t = l)
      = (networks m).filter fun t => networkLength t ≤ l - 1 := by
    apply Finset.filter_congr
    intro t _
    omega
  rw [h1, h2] at h
  rw [← h]
  push_cast
  ring

theorem Fref_four_three : Fref 4 3 = 1 / 128 := by
  norm_num [Fref, Finset.sum_Ico_succ_top]

theorem Fref_four_four : Fref 4 4 = 5 / 128 := by
  norm_num [Fref, Finset.sum_Ico_succ_top]

theorem lengthCumProb_four_four : lengthCumProb 4 4 = 1 := by
  rw [← Fref_ratio 4 4 (by norm_num) (by norm_num), Fref_four_four]
  norm_num

theorem lengthCumProb_four_three : lengthCumProb 4 3 = 1 / 5 := by
  rw [← Fref_ratio 4 3 (by norm_num) (by norm_num), Fref_four_three, Fref_four_four]
  norm_num

theorem lengthProb_four_four : lengthProb 4 4 = 4 / 5 := by
  rw [lengthProb_eq_sub 4 4 (by norm_num), lengthCumProb_four_four]
  have h : (4 : Nat) - 1 = 3 := rfl
  rw [h, lengthCumProb_four_three]
  norm_num

theorem meanLength_four : meanLength 4 = 19 / 5 := by
  rw [← Eref_eq_meanLength 4 (by norm_num), Eref_four]

/-- In binary64 arithmetic the quotient `F(4, 3) / F(4, 4)` formed by
`compute_expected_length(4)` is the binary64 value nearest to `1/5`, not `1/5`. -/
theorem double_ratio_four_three :
    vdivR rnd64 (some (1 / 128)) (some (5 / 128)) = .ok (some (3602879701896397 / 2 ^ 54)) ∧
    (3602879701896397 / 2 ^ 54 : ℚ) ≠ lengthCumProb 4 3 := by
  constructor
  · have h : rnd64 ((1 / 128 : ℚ) / (5 / 128)) = 3602879701896397 / 2 ^ 54 := by decide!
    simp only [vdivR]
    rw [if_neg (by norm_num), h]
  · rw [lengthCumProb_four_three]
    norm_num

theorem card_treesHeightLe_31 : ((treesHeightLe 31 31).card : ℚ) = 14544636039226909 := by
  rw [treesHeightLe_of_le 31 31 (le_refl _), Tree.treesOfNumNodesEq_card_eq_catalan, catalan_31]
  norm_num

/-- Counterexample to C10: in binary64 arithmetic `compute_expected_length(4)`, run on the
all-unknown table, returns `0x1.e666666666666p+1`, which is not the mean length `19/5` of
the networks of magnitude `4`. -/
theorem C10_counterexample :
    valueOf (compute_expected_length_rnd rnd64 4 4 allUnknown 4)
      = some (some (4278419646001971 / 2 ^ 50)) ∧
    meanLength 4 = 19 / 5 ∧ (4278419646001971 / 2 ^ 50 : ℚ) ≠ meanLength 4 := by
  refine ⟨by decide!, meanLength_four, ?_⟩
  rw [meanLength_four]
  norm_num

/-- Counterexample to C11: on the all-unknown table `F(4, 4)` returns `5/128`, while the
probability that a network of magnitude `4` has length exactly `4` is `4/5`. Normalising
alone does not repair the claim (`F(4, 4) / F(4, 4) = 1` is not `4/5`), nor does reading
"at most" alone (the probability of length at most `4` is `1`, not `5/128`). -/
theorem C11_counterexample :
    lengthProb 4 4 = 4 / 5 ∧
    (∃ U, F 4 4 allUnknown 4 4 = .ok (some (5 / 128), U)) ∧
    (¬ ∃ U, F 4 4 allUnknown 4 4 = .ok (some (lengthProb 4 4), U)) ∧
    (5 / 128 : ℚ) / (5 / 128) ≠ lengthProb 4 4 ∧
    (5 / 128 : ℚ) ≠ lengthCumProb 4 4 := by
  obtain ⟨U, hU, _, _⟩ := F_total 4 4 allUnknown 4 4 Sound_allUnknown (by norm_num)
    (by norm_num) (by norm_num) (by norm_num) (by norm_num)
  rw [Fref_four_four] at hU
  have hU2 : F 4 4 allUnknown 4 4 = .ok (some (5 / 128), U) := hU
  refine ⟨lengthProb_four_four, ⟨U, hU2⟩, ?_, ?_, ?_⟩
  · rintro ⟨V, hV⟩
    rw [hU2, lengthProb_four_four] at hV
    simp only [Except.ok.injEq, Prod.mk.injEq, Option.some.injEq] at hV
    norm_num at hV
  · rw [lengthProb_four_four]
    norm_num
  · rw [lengthCumProb_four_four]
    norm_num

/-- Counterexample to C19: in binary64 arithmetic `F(32, 32)`, run on the all-unknown
table, returns a number `q` of at most 53 significant bits, while the number of binary
plane trees with `31` internal nodes, `Catalan(31) = 14544636039226909`, is odd and above
`2^53`: `q * 2^63` is not that number. -/
theorem C19_counterexample :
    ∃ q U, F_rnd rnd64 32 32 allUnknown 32 32 = .ok (some q, U) ∧
      ((treesHeightLe 31 31).card : ℚ) = 14544636039226909 ∧
      catalan 31 = 14544636039226909 ∧
      q * 2 ^ (2 * 32 - 1) ≠ ((treesHeightLe 31 31).card : ℚ) ∧
      q ≠ (catalan 31 : ℚ) / 2 ^ (2 * 32 - 1) := by
  rcases F_rnd_spec rnd64 32 32 allUnknown 32 32 (by norm_num) (by norm_num) (by norm_num)
    (by norm_num) with ⟨_, hlt⟩ | ⟨q, U, h, _, _, hr⟩
  · omega
  · obtain ⟨y, hy⟩ := hr rfl (by norm_num) (by norm_num)
    have hfit : Fits53 q := by
      rw [hy]
      exact Fits53_rnd64 y
    have hnot : ¬ Fits53 (((14544636039226909 : Nat) : ℚ) / (2 : ℚ) ^ 63) :=
      not_Fits53_of_odd 14544636039226909 63 (by norm_num) (by norm_num)
    have hne : q ≠ ((14544636039226909 : Nat) : ℚ) / (2 : ℚ) ^ 63 := by
      intro hq
      rw [hq] at hfit
      exact hnot hfit
    refine ⟨q, U, h, card_treesHeightLe_31, catalan_31, ?_, ?_⟩
    · rw [card_treesHeightLe_31]
      intro hq
      apply hne
      have h63 : 2 * 32 - 1 = 63 := rfl
      rw [h63] at hq
      rw [eq_div_iff (by positivity), hq]
      norm_num
    · rw [catalan_31]
      have h63 : 2 * 32 - 1 = 63 := rfl
      rw [h63]
      exact hne

end Shreve
